import Mathlib

/-!
Verification of the A* path solver in `src/path.rs` of the snake game.

The module is shallowly embedded: the grid is a list of rows of cells, the
`HashMap<Point, CellInfo>` of the Rust code becomes a function
`Pt → Option CellInfo`, the 2D boolean closed list becomes a
`List (List Bool)` with the same bounds behaviour, and the unbounded
`while` / `loop` constructs become fuel-indexed recursions returning
`Option` (`none` models both a panic and fuel exhaustion; theorems below
show the fuel chosen in `solve` is never exhausted).  The fallback branch
of `solve` draws a random index from `thread_rng`; the embedding makes the
random choice an explicit `rand : Nat` parameter and uses
`rand % successors.length` as the chosen index, covering every value the
range `0..=len-1` can produce.
-/

set_option maxHeartbeats 1000000

namespace Snake

/-- Tile states of one grid cell (`enum Cell` used by `src/path.rs`). -/
inductive Cell where
  | Free
  | Snake
  | Food
  | Obstacle
  | Crash
deriving DecidableEq, Repr

/-- Movement directions (`enum Direction`). -/
inductive Direction where
  | North
  | South
  | West
  | East
deriving DecidableEq, Repr

/-- A grid coordinate, `struct Point { x, y }` / `(usize, usize)`. -/
abbrev Pt := Nat × Nat

/-- `Grid = Vec<Vec<Cell>>`: a list of rows indexed first by `x`, then `y`. -/
abbrev Grid := List (List Cell)

/-- Tile lookup `grid[x][y]`; `none` when either index is out of range
(the Rust code would panic there, and the uses below are all in range). -/
def tileAt (grid : Grid) (x y : Nat) : Option Cell :=
  (grid.get? x).bind fun row => row.get? y

/-- The traversability test of `generate_successors`:
`grid[x][y] == Cell::Free || grid[x][y] == Cell::Food`. -/
def isTraversable (grid : Grid) (x y : Nat) : Bool :=
  decide (tileAt grid x y = some Cell.Free) || decide (tileAt grid x y = some Cell.Food)

/-- `manhatten_distance` from `src/path.rs`:
`|x - target_x| + |y - target_y|` computed via signed subtraction. -/
def manhatten_distance (x y tx ty : Nat) : Nat :=
  ((x : Int) - (tx : Int)).natAbs + ((y : Int) - (ty : Int)).natAbs

/-- `get_direction` from `src/path.rs`. -/
def get_direction (fx fy tx ty : Nat) : Direction :=
  if tx > fx then Direction.East
  else if tx < fx then Direction.West
  else if ty > fy then Direction.South
  else Direction.North

/-- The four bounds-checked successor candidates of `generate_successors`
in the source order north `(x-1,y)`, south `(x+1,y)`, east `(x,y+1)`,
west `(x,y-1)`, checked against `grid.len()` on both axes (the `result`
vector before the filter). -/
def successorCands (x y : Nat) (grid : Grid) : List Pt :=
  (if 0 < x then [(x - 1, y)] else []) ++
  (if x + 1 < grid.length then [(x + 1, y)] else []) ++
  (if y + 1 < grid.length then [(x, y + 1)] else []) ++
  (if 0 < y then [(x, y - 1)] else [])

/-- The candidates that pass the traversability filter: the list
`generate_successors` returns when none of its tile lookups is out of
range. -/
def successorsOf (x y : Nat) (grid : Grid) : List Pt :=
  (successorCands x y grid).filter fun q => isTraversable grid q.1 q.2

/-- `generate_successors` from `src/path.rs`: the bounds-checked
candidates filtered by `grid[x][y] == Cell::Free || grid[x][y] ==
Cell::Food`.  The filter indexes the jagged grid directly, so it panics
(modelled as `none`) as soon as any candidate's row or column index is
out of range; otherwise it returns the filtered list. -/
def generate_successors (x y : Nat) (grid : Grid) : Option (List Pt) :=
  if (successorCands x y grid).all (fun q => (tileAt grid q.1 q.2).isSome) = true then
    some (successorsOf x y grid)
  else none

/-- `struct CellInfo` from `src/path.rs`. -/
structure CellInfo where
  parent : Option Pt
  g : Nat
  h : Nat
  f : Nat
deriving DecidableEq, Repr

/-- `CellInfo::default()`: `parent = None`, `g = h = f = 0`. -/
def CellInfo.dflt : CellInfo := ⟨none, 0, 0, 0⟩

/-- `CellDetails = HashMap<Point, CellInfo>`, as a lookup function. -/
abbrev CellDetails := Pt → Option CellInfo

/-- `cell_details.insert(p, i)`. -/
def insertCD (cd : CellDetails) (p : Pt) (i : CellInfo) : CellDetails :=
  fun q => if q = p then some i else cd q

/-- `usize::MAX` on the 64-bit targets the game is built for. -/
def USIZE_MAX : Nat := 2 ^ 64 - 1

/-- The scanning loop of `lowest_f`: `n` is the index of the next element,
`f`/`i` the best value and index so far.  A point missing from
`cell_details` is the `unreachable!()` panic, modelled as `none`. -/
def lowest_f_aux (cd : CellDetails) : List Pt → Nat → Nat → Nat → Option Nat
  | [], _, _, i => some i
  | p :: rest, n, f, i =>
    match cd p with
    | none => none
    | some info =>
      if info.f < f then lowest_f_aux cd rest (n + 1) info.f n
      else lowest_f_aux cd rest (n + 1) f i

/-- `lowest_f` from `src/path.rs`; `none` models the `assert!` failure on
an empty list and the `unreachable!()` inside the scan. -/
def lowest_f (list : List Pt) (cd : CellDetails) : Option Nat :=
  match list with
  | [] => none
  | _ :: _ => lowest_f_aux cd list 0 USIZE_MAX 0

/-- `Vec::swap_remove(i)`: replace index `i` with the last element and pop
the last element. -/
def swap_remove (l : List Pt) (i : Nat) : List Pt :=
  (l.set i ((l.getLast?).getD (0, 0))).dropLast

/-- Scan one row of the grid for the first `Food` cell. -/
def find_food_in_row : List Cell → Nat → Option Nat
  | [], _ => none
  | c :: rest, y => if c = Cell.Food then some y else find_food_in_row rest (y + 1)

/-- Row-major scan of `find_target`. -/
def find_target_aux : Grid → Nat → Option Pt
  | [], _ => none
  | row :: rest, x =>
    match find_food_in_row row 0 with
    | some y => some (x, y)
    | none => find_target_aux rest (x + 1)

/-- `find_target` from `src/path.rs`; `none` models the
`unreachable!("No food found in grid!")` panic. -/
def find_target (grid : Grid) : Option Pt := find_target_aux grid 0

/-- Read `closed_list[x][y]` (always in range at the call sites below). -/
def closedAt (closed : List (List Bool)) (x y : Nat) : Bool :=
  (((closed.get? x).getD []).get? y).getD false

/-- Write `closed_list[x][y] = true`; `none` models the out-of-bounds
indexing panic. -/
def setClosed (closed : List (List Bool)) (x y : Nat) : Option (List (List Bool)) :=
  match closed.get? x with
  | none => none
  | some row => if y < row.length then some (closed.set x (row.set y true)) else none

/-- Number of cells marked `true` in the closed list (proof measure). -/
def closedCount (closed : List (List Bool)) : Nat :=
  (closed.map fun row => row.count true).sum

/-- The parent-pointer walk of `generate_path`, with fuel standing in for
the unbounded `loop`.  Directions are pushed in the order of the Rust
code: last traversal move first. -/
def generate_path_aux (cd : CellDetails) : Nat → Nat → Nat → List Direction → Option (List Direction)
  | 0, _, _, _ => none
  | fuel + 1, x, y, acc =>
    match cd (x, y) with
    | none => none
    | some info =>
      match info.parent with
      | none => some acc
      | some par =>
        generate_path_aux cd fuel par.1 par.2 (acc ++ [get_direction par.1 par.2 x y])

/-- `generate_path` from `src/path.rs`.  The fuel `grid.len()^2 + 2` is
proved sufficient below (parent chains are strictly shorter). -/
def generate_path (grid : Grid) (x y : Nat) (cd : CellDetails) : Option (List Direction) :=
  generate_path_aux cd (grid.length * grid.length + 2) x y []

/-- The mutable state of the `while` loop inside `solve`. -/
structure SearchState where
  openList : List Pt
  cd : CellDetails
  closed : List (List Bool)

/-- The `for (next_x, next_y) in successors` loop of `solve`, processing
the successors of the popped cell `(x, y)`: skip closed successors, return
the reconstructed path when the target is generated, otherwise insert or
update the successor record exactly as the Rust code does. -/
def processSuccessors (grid : Grid) (target : Pt) (x y : Nat) :
    List Pt → CellDetails → List Pt → List (List Bool) →
    Option (Sum (List Direction) (CellDetails × List Pt))
  | [], cd, opn, _ => some (Sum.inr (cd, opn))
  | q :: rest, cd, opn, closed =>
    if closedAt closed q.1 q.2 then processSuccessors grid target x y rest cd opn closed
    else if q = target then
      match generate_path grid q.1 q.2 (insertCD cd q ⟨some (x, y), 0, 0, 0⟩) with
      | none => none
      | some dirs => some (Sum.inl dirs)
    else
      match cd (x, y) with
      | none => none
      | some info =>
        match cd q with
        | some nextInfo =>
          if nextInfo.f < info.g + 1 + manhatten_distance q.1 q.2 target.1 target.2 then
            processSuccessors grid target x y rest cd opn closed
          else
            processSuccessors grid target x y rest
              (insertCD cd q ⟨some (x, y), info.g + 1,
                manhatten_distance q.1 q.2 target.1 target.2,
                info.g + 1 + manhatten_distance q.1 q.2 target.1 target.2⟩) opn closed
        | none =>
          processSuccessors grid target x y rest
            (insertCD cd q ⟨some (x, y), info.g + 1,
              manhatten_distance q.1 q.2 target.1 target.2,
              info.g + 1 + manhatten_distance q.1 q.2 target.1 target.2⟩) (opn ++ [q]) closed

/-- One iteration of the `while !open_list.is_empty()` loop: pop the
lowest-`f` open cell, mark it closed, process its successors. -/
def astarStep (grid : Grid) (target : Pt) (st : SearchState) :
    Option (Sum (List Direction) SearchState) :=
  match lowest_f st.openList st.cd with
  | none => none
  | some i =>
    let p := st.openList.getD i (0, 0)
    let opn := swap_remove st.openList i
    match setClosed st.closed p.1 p.2 with
    | none => none
    | some closed =>
      match generate_successors p.1 p.2 grid with
      | none => none
      | some succ =>
        match processSuccessors grid target p.1 p.2 succ st.cd opn closed with
        | none => none
        | some (Sum.inl dirs) => some (Sum.inl dirs)
        | some (Sum.inr (cd, opn2)) => some (Sum.inr ⟨opn2, cd, closed⟩)

/-- The search loop; `some (some dirs)` is the early return with a path,
`some none` the exhausted open list, `none` a panic or exhausted fuel. -/
def solveLoop (grid : Grid) (target : Pt) : Nat → SearchState → Option (Option (List Direction))
  | 0, _ => none
  | fuel + 1, st =>
    match st.openList with
    | [] => some none
    | _ :: _ =>
      match astarStep grid target st with
      | none => none
      | some (Sum.inl dirs) => some (some dirs)
      | some (Sum.inr st2) => solveLoop grid target fuel st2

/-- The state of `solve` just before the loop: the start cell is on the
open list with a `Default` record, no cell is closed. -/
def initState (start : Pt) (grid : Grid) : SearchState :=
  { openList := [start]
  , cd := fun p => if p = start then some CellInfo.dflt else none
  , closed := List.replicate grid.length (List.replicate grid.length false) }

/-- The fallback after the loop exhausts: generate the successors of
`start` again (the filter can panic here too, modelled as `none`) and
pick one (`rand` makes the `thread_rng` index choice explicit), or
return `vec![]`. -/
def fallback (grid : Grid) (start : Pt) (rand : Nat) : Option (List Direction) :=
  (generate_successors start.1 start.2 grid).map fun succ =>
    if succ.length = 0 then []
    else
      let c := succ.getD (rand % succ.length) (0, 0)
      [get_direction start.1 start.2 c.1 c.2]

/-- `solve` from `src/path.rs`.  The loop fuel `grid.len()^2 + 1` is proved
sufficient below; `none` only occurs on a panic (e.g. no food in the
grid) or on an out-of-bounds start. -/
def solve (grid : Grid) (start : Pt) (rand : Nat) : Option (List Direction) :=
  match find_target grid with
  | none => none
  | some target =>
    match solveLoop grid target (grid.length * grid.length + 1) (initState start grid) with
    | none => none
    | some (some dirs) => some dirs
    | some none => fallback grid start rand

/-- Run `k` loop iterations from a state (for inspecting intermediate
search states). -/
def runSteps (grid : Grid) (target : Pt) : Nat → SearchState → Option SearchState
  | 0, st => some st
  | k + 1, st =>
    match astarStep grid target st with
    | some (Sum.inr st2) => runSteps grid target k st2
    | _ => none

end Snake

namespace Snake

/-! ### Specification-side notions -/

/-- In bounds of the square `grid.len() x grid.len()` view that
`src/path.rs` uses for its closed list and successor bounds checks. -/
def inSq (grid : Grid) (p : Pt) : Prop := p.1 < grid.length ∧ p.2 < grid.length

instance (grid : Grid) (p : Pt) : Decidable (inSq grid p) := by
  unfold inSq; infer_instance

/-- Orthogonal adjacency of two points. -/
def orthAdj (p q : Pt) : Prop :=
  (p.1 = q.1 ∧ (p.2 + 1 = q.2 ∨ q.2 + 1 = p.2)) ∨
  (p.2 = q.2 ∧ (p.1 + 1 = q.1 ∨ q.1 + 1 = p.1))

instance (p q : Pt) : Decidable (orthAdj p q) := by
  unfold orthAdj; infer_instance

/-- `PathTraces grid p ds r` states that the direction list `ds`, read
front to back, moves from `p` to `r` one orthogonal step at a time, that
each direction is the one `get_direction` derives for its step, and that
every point after `p` is a traversable in-bounds tile. -/
inductive PathTraces (grid : Grid) : Pt → List Direction → Pt → Prop where
  | nil (p : Pt) : PathTraces grid p [] p
  | cons (p q r : Pt) (d : Direction) (ds : List Direction)
      (hadj : orthAdj p q) (hdir : d = get_direction p.1 p.2 q.1 q.2)
      (htrav : isTraversable grid q.1 q.2 = true) (hin : inSq grid q)
      (hrest : PathTraces grid q ds r) : PathTraces grid p (d :: ds) r

/-- Reachability over traversable tiles. -/
def Reachable (grid : Grid) (s t : Pt) : Prop := ∃ ds, PathTraces grid s ds t

/-- A monotone (detour-free) lattice path of length `M` from `start` to
`food`: adjacent steps, the Manhattan distance to `food` drops by one per
step, and all points after `start` are traversable and in bounds. -/
def MonoPath (grid : Grid) (start food : Pt) (M : Nat) (m : Nat → Pt) : Prop :=
  m 0 = start ∧ m M = food ∧
  (∀ i, i < M → orthAdj (m i) (m (i + 1))) ∧
  (∀ i, i ≤ M → manhatten_distance (m i).1 (m i).2 food.1 food.2 = M - i) ∧
  (∀ i, 1 ≤ i → i ≤ M → isTraversable grid (m i).1 (m i).2 = true ∧ inSq grid (m i))

/-! ### Arithmetic of the Manhattan distance -/

theorem natAbs_sub_eq (a b : Nat) : ((a : Int) - b).natAbs = max a b - min a b := by
  rcases Nat.le_total a b with h | h
  · have h1 : ((a : Int) - b) = -(((b - a : Nat) : Int)) := by
      push_cast [h]; ring
    rw [h1, Int.natAbs_neg, Int.natAbs_ofNat]
    omega
  · have h1 : ((a : Int) - b) = (((a - b : Nat) : Int)) := by
      push_cast [h]; ring
    rw [h1, Int.natAbs_ofNat]
    omega

theorem manhatten_eq (x y tx ty : Nat) :
    manhatten_distance x y tx ty = (max x tx - min x tx) + (max y ty - min y ty) := by
  unfold manhatten_distance
  rw [natAbs_sub_eq, natAbs_sub_eq]

theorem manhatten_self (x y : Nat) : manhatten_distance x y x y = 0 := by
  rw [manhatten_eq]; omega

theorem orthAdj_irrefl (p : Pt) : ¬ orthAdj p p := by
  rcases p with ⟨a, b⟩
  unfold orthAdj
  omega

theorem orthAdj_manhatten {p q : Pt} (h : orthAdj p q) :
    manhatten_distance p.1 p.2 q.1 q.2 = 1 := by
  rcases p with ⟨a, b⟩; rcases q with ⟨c, d⟩
  unfold orthAdj at h
  rw [manhatten_eq]
  omega

theorem orthAdj_manhatten_le {p q t : Pt} (h : orthAdj p q) :
    manhatten_distance p.1 p.2 t.1 t.2 ≤ manhatten_distance q.1 q.2 t.1 t.2 + 1 := by
  rcases p with ⟨a, b⟩; rcases q with ⟨c, d⟩; rcases t with ⟨u, v⟩
  unfold orthAdj at h
  rw [manhatten_eq, manhatten_eq]
  omega

theorem orthAdj_manhatten_ge {p q t : Pt} (h : orthAdj p q) :
    manhatten_distance q.1 q.2 t.1 t.2 ≤ manhatten_distance p.1 p.2 t.1 t.2 + 1 := by
  rcases p with ⟨a, b⟩; rcases q with ⟨c, d⟩; rcases t with ⟨u, v⟩
  unfold orthAdj at h
  rw [manhatten_eq, manhatten_eq]
  omega

/-! ### Basic facts about tiles and successors -/

theorem isTraversable_iff {grid : Grid} {x y : Nat} :
    isTraversable grid x y = true ↔
      tileAt grid x y = some Cell.Free ∨ tileAt grid x y = some Cell.Food := by
  unfold isTraversable
  simp [Bool.or_eq_true, decide_eq_true_eq]

theorem tileAt_lt {grid : Grid} {a b : Nat} {c : Cell} (h : tileAt grid a b = some c) :
    a < grid.length := by
  unfold tileAt at h
  cases hg : grid.get? a with
  | none => rw [hg] at h; simp at h
  | some row =>
    by_contra hlt
    rw [List.get?_eq_none.mpr (Nat.le_of_not_lt hlt)] at hg
    exact Option.noConfusion hg

theorem isTraversable_lt {grid : Grid} {a b : Nat} (h : isTraversable grid a b = true) :
    a < grid.length := by
  rcases isTraversable_iff.mp h with h1 | h1 <;> exact tileAt_lt h1

theorem mem_ite_singleton {c : Prop} [Decidable c] {v q : Pt} :
    (q ∈ if c then [v] else ([] : List Pt)) ↔ c ∧ q = v := by
  split <;> simp_all

/-- Full characterisation of `successorsOf` at a point whose `y`
coordinate is in bounds: exactly the orthogonally adjacent, square-bounds,
traversable points, in the fixed order north, south, east, west. -/
theorem mem_successorsOf {grid : Grid} {x y : Nat} (hy : y < grid.length) (q : Pt) :
    q ∈ successorsOf x y grid ↔
      orthAdj (x, y) q ∧ q.1 < grid.length ∧ q.2 < grid.length ∧
        isTraversable grid q.1 q.2 = true := by
  rcases q with ⟨a, b⟩
  unfold successorsOf successorCands
  simp only [List.mem_filter, List.mem_append, mem_ite_singleton]
  constructor
  · rintro ⟨hmem, htrav⟩
    have hlt : a < grid.length := isTraversable_lt htrav
    rcases hmem with ((⟨h1, h2⟩ | ⟨h1, h2⟩) | ⟨h1, h2⟩) | ⟨h1, h2⟩ <;>
      · injection h2 with h3 h4
        refine ⟨?_, hlt, ?_, htrav⟩
        · simp only [orthAdj]
          omega
        · omega
  · rintro ⟨hadj, h1, h2, htrav⟩
    refine ⟨?_, htrav⟩
    simp only [orthAdj] at hadj
    rcases hadj with ⟨hx, hy2 | hy2⟩ | ⟨hy2, hx | hx⟩
    · exact Or.inl (Or.inr ⟨by omega, by simp only [Prod.mk.injEq]; omega⟩)
    · exact Or.inr ⟨by omega, by simp only [Prod.mk.injEq]; omega⟩
    · exact Or.inl (Or.inl (Or.inr ⟨by omega, by simp only [Prod.mk.injEq]; omega⟩))
    · exact Or.inl (Or.inl (Or.inl ⟨by omega, by simp only [Prod.mk.injEq]; omega⟩))

theorem successorsOf_sub {grid : Grid} {x y : Nat} {q : Pt}
    (h : q ∈ successorsOf x y grid) :
    orthAdj (x, y) q ∧ q.1 < grid.length ∧ isTraversable grid q.1 q.2 = true ∧ q ≠ (x, y) := by
  rcases q with ⟨a, b⟩
  unfold successorsOf successorCands at h
  simp only [List.mem_filter, List.mem_append, mem_ite_singleton] at h
  rcases h with ⟨hmem, htrav⟩
  have hlt : a < grid.length := isTraversable_lt htrav
  have hadj : orthAdj (x, y) (a, b) := by
    unfold orthAdj
    rcases hmem with ((⟨h1, h2⟩ | ⟨h1, h2⟩) | ⟨h1, h2⟩) | ⟨h1, h2⟩ <;>
      · injection h2 with h3 h4
        omega
  refine ⟨hadj, hlt, htrav, ?_⟩
  intro hq
  rw [hq] at hadj
  exact orthAdj_irrefl _ hadj

theorem successorCands_bounds {grid : Grid} {x y : Nat} (hx : x < grid.length)
    (hy : y < grid.length) {q : Pt} (hq : q ∈ successorCands x y grid) :
    q.1 < grid.length ∧ q.2 < grid.length := by
  rcases q with ⟨a, b⟩
  unfold successorCands at hq
  simp only [List.mem_append, mem_ite_singleton] at hq
  rcases hq with ((⟨h1, h2⟩ | ⟨h1, h2⟩) | ⟨h1, h2⟩) | ⟨h1, h2⟩ <;>
    · injection h2 with h3 h4
      constructor <;> omega

theorem tileAt_isSome {grid : Grid} {a b : Nat}
    (hrows : ∀ row ∈ grid, grid.length ≤ row.length)
    (ha : a < grid.length) (hb : b < grid.length) :
    (tileAt grid a b).isSome = true := by
  unfold tileAt
  have hrow : grid.get? a = some (grid.get ⟨a, ha⟩) := List.get?_eq_get ha
  rw [hrow]
  have hlen := hrows _ (List.get_mem grid a ha)
  have hb2 : b < (grid.get ⟨a, ha⟩).length := by omega
  show ((grid.get ⟨a, ha⟩).get? b).isSome = true
  rw [List.get?_eq_get hb2]
  rfl

/-- When every row is at least as long as the row count, none of the
filter's tile lookups is out of range, so `generate_successors` returns
the filtered list. -/
theorem generate_successors_eq {grid : Grid} {x y : Nat}
    (hrows : ∀ row ∈ grid, grid.length ≤ row.length)
    (hx : x < grid.length) (hy : y < grid.length) :
    generate_successors x y grid = some (successorsOf x y grid) := by
  unfold generate_successors
  rw [if_pos]
  rw [List.all_eq_true]
  intro q hq
  have hb := successorCands_bounds hx hy hq
  exact tileAt_isSome hrows hb.1 hb.2

theorem generate_successors_some {grid : Grid} {x y : Nat} {l : List Pt}
    (h : generate_successors x y grid = some l) : l = successorsOf x y grid := by
  unfold generate_successors at h
  split at h
  · injection h with h
    exact h.symm
  · exact Option.noConfusion h

end Snake

namespace Snake

/-! ### Path geometry -/

theorem PathTraces.snoc {grid : Grid} {a b c : Pt} {L : List Direction}
    (h : PathTraces grid a L b) (hadj : orthAdj b c)
    (htrav : isTraversable grid c.1 c.2 = true) (hin : inSq grid c) :
    PathTraces grid a (L ++ [get_direction b.1 b.2 c.1 c.2]) c := by
  induction h with
  | nil p => exact PathTraces.cons p c c _ [] hadj rfl htrav hin (PathTraces.nil c)
  | cons p q r d ds hadj2 hdir htrav2 hin2 _ ih =>
    exact PathTraces.cons p q c d _ hadj2 hdir htrav2 hin2 (ih hadj)

theorem PathTraces.manhatten_le {grid : Grid} {a b : Pt} {L : List Direction}
    (h : PathTraces grid a L b) :
    manhatten_distance a.1 a.2 b.1 b.2 ≤ L.length := by
  induction h with
  | nil p => simp [manhatten_self]
  | cons p q r d ds hadj _ _ _ _ ih =>
    have h1 := orthAdj_manhatten_le (t := r) hadj
    simp only [List.length_cons]
    omega

theorem PathTraces.mem_closed_set {grid : Grid} (S : List Pt)
    (hcl : ∀ p ∈ S, ∀ q : Pt, orthAdj p q → isTraversable grid q.1 q.2 = true →
      inSq grid q → q ∈ S) :
    ∀ {a b : Pt} {L : List Direction}, PathTraces grid a L b → a ∈ S → b ∈ S := by
  intro a b L h
  induction h with
  | nil p => exact fun ha => ha
  | cons p q r d ds hadj _ htrav hin _ ih =>
    exact fun ha => ih (hcl p ha q hadj htrav hin)

/-- The candidate list containing every point orthogonally adjacent to
`p`, used to make adjacency checks finite in concrete refutations. -/
def adjCands (p : Pt) : List Pt :=
  [(p.1 + 1, p.2), (p.1, p.2 + 1)] ++
  (if 0 < p.1 then [(p.1 - 1, p.2)] else []) ++
  (if 0 < p.2 then [(p.1, p.2 - 1)] else [])

theorem orthAdj_mem_adjCands {p q : Pt} (h : orthAdj p q) : q ∈ adjCands p := by
  rcases p with ⟨a, b⟩; rcases q with ⟨c, d⟩
  simp only [orthAdj] at h
  unfold adjCands
  rcases h with ⟨h1, h2 | h2⟩ | ⟨h1, h2 | h2⟩
  · have hc : c = a ∧ d = b + 1 := by omega
    simp [hc.1, hc.2]
  · have hb : 0 < b := by omega
    have hc : c = a ∧ d = b - 1 := by omega
    simp [hc.1, hc.2, hb]
  · have hc : c = a + 1 ∧ d = b := by omega
    simp [hc.1, hc.2]
  · have ha : 0 < a := by omega
    have hc : c = a - 1 ∧ d = b := by omega
    simp [hc.1, hc.2, ha]

/-! ### Facts about `find_target` -/

theorem find_food_in_row_none {row : List Cell} :
    ∀ {y0 : Nat}, find_food_in_row row y0 = none → ∀ j, row.get? j ≠ some Cell.Food := by
  induction row with
  | nil => intro y0 _ j; simp
  | cons c rest ih =>
    intro y0 h j
    unfold find_food_in_row at h
    split at h
    · exact Option.noConfusion h
    · cases j with
      | zero =>
        simp only [List.get?_cons_zero]
        intro hc
        injection hc with hc
        simp_all
      | succ j => exact ih h j

theorem find_food_in_row_some {row : List Cell} :
    ∀ {y0 y : Nat}, find_food_in_row row y0 = some y →
      y0 ≤ y ∧ row.get? (y - y0) = some Cell.Food ∧
        ∀ j, j < y - y0 → row.get? j ≠ some Cell.Food := by
  induction row with
  | nil => intro y0 y h; exact Option.noConfusion h
  | cons c rest ih =>
    intro y0 y h
    unfold find_food_in_row at h
    split at h
    · injection h with h
      subst h
      refine ⟨Nat.le_refl _, ?_, ?_⟩
      · simp_all
      · intro j hj; omega
    · rcases ih h with ⟨h1, h2, h3⟩
      have hy0 : y0 ≤ y := by omega
      have hne : c ≠ Cell.Food := by assumption
      refine ⟨hy0, ?_, ?_⟩
      · have : y - y0 = (y - (y0 + 1)) + 1 := by omega
        rw [this]
        simpa using h2
      · intro j hj
        cases j with
        | zero =>
          simp only [List.get?_cons_zero]
          intro hc
          injection hc with hc
          exact hne hc
        | succ j =>
          simp only [List.get?_cons_succ]
          exact h3 j (by omega)

theorem tileAt_cons_succ (row : List Cell) (rest : Grid) (a b : Nat) :
    tileAt (row :: rest) (a + 1) b = tileAt rest a b := rfl

theorem tileAt_cons_zero (row : List Cell) (rest : Grid) (b : Nat) :
    tileAt (row :: rest) 0 b = row.get? b := rfl

theorem find_target_aux_spec :
    ∀ (g : Grid) (x0 : Nat) (p : Pt), find_target_aux g x0 = some p →
      x0 ≤ p.1 ∧ tileAt g (p.1 - x0) p.2 = some Cell.Food ∧
      (∀ a b, x0 ≤ a → a < p.1 → tileAt g (a - x0) b ≠ some Cell.Food) ∧
      (∀ b, b < p.2 → tileAt g (p.1 - x0) b ≠ some Cell.Food) := by
  intro g
  induction g with
  | nil => intro x0 p h; exact Option.noConfusion h
  | cons row rest ih =>
    intro x0 p h
    unfold find_target_aux at h
    cases hrow : find_food_in_row row 0 with
    | some y =>
      rw [hrow] at h
      injection h with h
      subst h
      rcases find_food_in_row_some hrow with ⟨_, h2, h3⟩
      simp only [Nat.sub_self]
      refine ⟨Nat.le_refl _, ?_, ?_, ?_⟩
      · simpa [tileAt_cons_zero] using h2
      · intro a b ha1 ha2; omega
      · intro b hb
        rw [tileAt_cons_zero]
        exact h3 b (by omega)
    | none =>
      rw [hrow] at h
      rcases ih (x0 + 1) p h with ⟨h1, h2, h3, h4⟩
      have hx0 : x0 ≤ p.1 := by omega
      have hsub : p.1 - x0 = (p.1 - (x0 + 1)) + 1 := by omega
      refine ⟨hx0, ?_, ?_, ?_⟩
      · rw [hsub, tileAt_cons_succ]; exact h2
      · intro a b ha1 ha2
        rcases Nat.eq_or_lt_of_le ha1 with heq | hlt
        · subst heq
          rw [Nat.sub_self, tileAt_cons_zero]
          exact find_food_in_row_none hrow b
        · have : a - x0 = (a - (x0 + 1)) + 1 := by omega
          rw [this, tileAt_cons_succ]
          exact h3 a b (by omega) ha2
      · intro b hb
        rw [hsub, tileAt_cons_succ]
        exact h4 b hb

theorem find_target_spec {grid : Grid} {p : Pt} (h : find_target grid = some p) :
    tileAt grid p.1 p.2 = some Cell.Food ∧
      ∀ q : Pt, tileAt grid q.1 q.2 = some Cell.Food →
        p.1 < q.1 ∨ (p.1 = q.1 ∧ p.2 ≤ q.2) := by
  rcases find_target_aux_spec grid 0 p h with ⟨_, h2, h3, h4⟩
  simp only [Nat.sub_zero] at h2 h3 h4
  refine ⟨h2, ?_⟩
  intro q hq
  by_contra hcon
  push_neg at hcon
  rcases hcon with ⟨hc1, hc2⟩
  rcases Nat.lt_or_ge q.1 p.1 with hlt | hge
  · exact h3 q.1 q.2 (Nat.zero_le _) hlt hq
  · have : p.1 = q.1 := by omega
    have hb : q.2 < p.2 := by
      have := hc2 this
      omega
    rw [← this] at hq
    exact h4 q.2 hb hq

theorem find_target_none {grid : Grid}
    (h : ∀ x y, tileAt grid x y ≠ some Cell.Food) : find_target grid = none := by
  unfold find_target
  have haux : ∀ (g : Grid), (∀ x y, tileAt g x y ≠ some Cell.Food) →
      ∀ x0, find_target_aux g x0 = none := by
    intro g
    induction g with
    | nil => intro _ x0; rfl
    | cons row rest ih =>
      intro hg x0
      unfold find_target_aux
      cases hrow : find_food_in_row row 0 with
      | some y =>
        exfalso
        rcases find_food_in_row_some hrow with ⟨_, h2, _⟩
        exact hg 0 y (by simpa [tileAt_cons_zero] using h2)
      | none =>
        exact ih (fun x y => by simpa [tileAt_cons_succ] using hg (x + 1) y) (x0 + 1)
  exact haux grid h 0

end Snake

namespace Snake

/-! ### `swap_remove` -/

theorem swap_remove_perm :
    ∀ (l : List Pt) (i : Nat), i < l.length →
      (l.getD i (0, 0) :: swap_remove l i).Perm l := by
  intro l
  induction l with
  | nil => intro i h; simp at h
  | cons a l2 ih =>
    intro i h
    cases i with
    | zero =>
      cases l2 with
      | nil => simp [swap_remove]
      | cons b l3 =>
        have hne2 : (b :: l3) ≠ ([] : List Pt) := by simp
        have hlast : (a :: b :: l3).getLast? = some ((b :: l3).getLast hne2) := by
          rw [show (a :: b :: l3).getLast? = (b :: l3).getLast? from rfl]
          exact List.getLast?_eq_getLast _ _
        unfold swap_remove
        rw [hlast]
        simp only [Option.getD_some, List.getD_cons_zero, List.set_cons_zero]
        have hdrop : ((b :: l3).getLast hne2 :: b :: l3).dropLast =
            (b :: l3).getLast hne2 :: (b :: l3).dropLast := rfl
        rw [hdrop]
        refine List.Perm.cons a ?_
        have hconcat := List.dropLast_concat_getLast hne2
        have hperm := (List.perm_append_singleton ((b :: l3).getLast hne2)
          ((b :: l3).dropLast)).symm
        rw [hconcat] at hperm
        exact hperm
    | succ i =>
      have hl2 : l2 ≠ [] := by
        intro hnil
        subst hnil
        simp at h
      have hi : i < l2.length := by simpa using h
      have hlast : (a :: l2).getLast? = l2.getLast? := by
        cases l2 with
        | nil => exact absurd rfl hl2
        | cons b l3 => rfl
      have hstep : swap_remove (a :: l2) (i + 1) = a :: swap_remove l2 i := by
        unfold swap_remove
        rw [hlast]
        have hset : (a :: l2).set (i + 1) ((l2.getLast?).getD (0, 0)) =
            a :: l2.set i ((l2.getLast?).getD (0, 0)) := rfl
        rw [hset]
        have hne : l2.set i ((l2.getLast?).getD (0, 0)) ≠ [] := by
          intro hnil
          have := List.length_set l2 i ((l2.getLast?).getD (0, 0))
          rw [hnil] at this
          simp at this
          omega
        cases hset2 : l2.set i ((l2.getLast?).getD (0, 0)) with
        | nil => exact absurd hset2 hne
        | cons c l4 => rfl
      rw [hstep]
      have hgetD : (a :: l2).getD (i + 1) (0, 0) = l2.getD i (0, 0) := rfl
      rw [hgetD]
      exact List.Perm.trans (List.Perm.swap a (l2.getD i (0, 0)) (swap_remove l2 i))
        (List.Perm.cons a (ih i hi))

theorem swap_remove_length {l : List Pt} {i : Nat} (h : i < l.length) :
    (swap_remove l i).length + 1 = l.length := by
  have := (swap_remove_perm l i h).length_eq
  simpa using this

theorem mem_of_mem_swap_remove {l : List Pt} {i : Nat} {q : Pt} (h : i < l.length)
    (hq : q ∈ swap_remove l i) : q ∈ l :=
  (swap_remove_perm l i h).mem_iff.mp (List.mem_cons_of_mem _ hq)

theorem swap_remove_nodup {l : List Pt} {i : Nat} (h : i < l.length) (hnd : l.Nodup) :
    (swap_remove l i).Nodup ∧ l.getD i (0, 0) ∉ swap_remove l i := by
  have := ((swap_remove_perm l i h).nodup_iff).mpr hnd
  rw [List.nodup_cons] at this
  exact ⟨this.2, this.1⟩

theorem mem_swap_remove_of_ne {l : List Pt} {i : Nat} {q : Pt} (h : i < l.length)
    (hq : q ∈ l) (hne : q ≠ l.getD i (0, 0)) : q ∈ swap_remove l i := by
  have hmem := (swap_remove_perm l i h).mem_iff.mpr hq
  rcases List.mem_cons.mp hmem with heq | hmem2
  · exact absurd heq hne
  · exact hmem2

theorem getD_mem_of_lt {l : List Pt} {i : Nat} (h : i < l.length) : l.getD i (0, 0) ∈ l :=
  (swap_remove_perm l i h).mem_iff.mp (List.mem_cons_self _ _)

/-! ### `lowest_f` -/

theorem lowest_f_aux_spec (cd : CellDetails) :
    ∀ (l : List Pt) (n f0 i0 : Nat), (∀ p ∈ l, cd p ≠ none) →
      ∃ j, lowest_f_aux cd l n f0 i0 = some j ∧
        (j = i0 ∨ ∃ k, k < l.length ∧ j = n + k) := by
  intro l
  induction l with
  | nil => intro n f0 i0 _; exact ⟨i0, rfl, Or.inl rfl⟩
  | cons p rest ih =>
    intro n f0 i0 hcd
    cases hp : cd p with
    | none => exact absurd hp (hcd p (List.mem_cons_self _ _))
    | some info =>
      simp only [lowest_f_aux, hp]
      by_cases hf : info.f < f0
      · rw [if_pos hf]
        rcases ih (n + 1) info.f n (fun q hq => hcd q (List.mem_cons_of_mem _ hq)) with
          ⟨j, hj, hcase⟩
        refine ⟨j, hj, Or.inr ?_⟩
        rcases hcase with h1 | ⟨k, hk, h2⟩
        · exact ⟨0, by simp, by omega⟩
        · exact ⟨k + 1, by simp; omega, by omega⟩
      · rw [if_neg hf]
        rcases ih (n + 1) f0 i0 (fun q hq => hcd q (List.mem_cons_of_mem _ hq)) with
          ⟨j, hj, hcase⟩
        refine ⟨j, hj, ?_⟩
        rcases hcase with h1 | ⟨k, hk, h2⟩
        · exact Or.inl h1
        · exact Or.inr ⟨k + 1, by simp; omega, by omega⟩

theorem lowest_f_lt {l : List Pt} {cd : CellDetails} (hne : l ≠ [])
    (hcd : ∀ p ∈ l, cd p ≠ none) :
    ∃ j, lowest_f l cd = some j ∧ j < l.length := by
  cases l with
  | nil => exact absurd rfl hne
  | cons p rest =>
    rcases lowest_f_aux_spec cd (p :: rest) 0 USIZE_MAX 0 hcd with ⟨j, hj, hcase⟩
    refine ⟨j, hj, ?_⟩
    rcases hcase with h1 | ⟨k, hk, h2⟩
    · subst h1; simp
    · omega

theorem lowest_f_aux_min (cd : CellDetails) :
    ∀ (l : List Pt) (n f0 i0 : Nat),
      (∀ p ∈ l, ∃ ip, cd p = some ip ∧ ip.f < USIZE_MAX) →
      ∃ j fj, lowest_f_aux cd l n f0 i0 = some j ∧ fj ≤ f0 ∧
        ((j = i0 ∧ fj = f0) ∨ (∃ k, k < l.length ∧ j = n + k ∧
            ∃ ip, cd (l.getD k (0, 0)) = some ip ∧ ip.f = fj)) ∧
        (∀ p ∈ l, ∀ ip, cd p = some ip → fj ≤ ip.f) := by
  intro l
  induction l with
  | nil =>
    intro n f0 i0 _
    exact ⟨i0, f0, rfl, Nat.le_refl _, Or.inl ⟨rfl, rfl⟩, by simp⟩
  | cons p rest ih =>
    intro n f0 i0 hcd
    rcases hcd p (List.mem_cons_self _ _) with ⟨info, hp, hfmax⟩
    simp only [lowest_f_aux, hp]
    by_cases hf : info.f < f0
    · rw [if_pos hf]
      rcases ih (n + 1) info.f n (fun q hq => hcd q (List.mem_cons_of_mem _ hq)) with
        ⟨j, fj, hj, hle, hcase, hmin⟩
      refine ⟨j, fj, hj, by omega, ?_, ?_⟩
      · rcases hcase with ⟨h1, h2⟩ | ⟨k, hk, h2, ip, hip, hfip⟩
        · exact Or.inr ⟨0, by simp, by omega, info, by simpa using hp, by omega⟩
        · exact Or.inr ⟨k + 1, by simp; omega, by omega, ip, by simpa using hip, hfip⟩
      · intro q hq iq hiq
        rcases List.mem_cons.mp hq with heq | hq2
        · subst heq
          rw [hp] at hiq
          injection hiq with hiq
          subst hiq
          omega
        · exact hmin q hq2 iq hiq
    · rw [if_neg hf]
      rcases ih (n + 1) f0 i0 (fun q hq => hcd q (List.mem_cons_of_mem _ hq)) with
        ⟨j, fj, hj, hle, hcase, hmin⟩
      refine ⟨j, fj, hj, hle, ?_, ?_⟩
      · rcases hcase with h1 | ⟨k, hk, h2, ip, hip, hfip⟩
        · exact Or.inl h1
        · exact Or.inr ⟨k + 1, by simp; omega, by omega, ip, by simpa using hip, hfip⟩
      · intro q hq iq hiq
        rcases List.mem_cons.mp hq with heq | hq2
        · subst heq
          rw [hp] at hiq
          injection hiq with hiq
          subst hiq
          omega
        · exact hmin q hq2 iq hiq

theorem lowest_f_min {l : List Pt} {cd : CellDetails} (hne : l ≠ [])
    (hcd : ∀ p ∈ l, ∃ ip, cd p = some ip ∧ ip.f < USIZE_MAX) :
    ∃ j ip, lowest_f l cd = some j ∧ j < l.length ∧ cd (l.getD j (0, 0)) = some ip ∧
      ∀ p ∈ l, ∀ iq, cd p = some iq → ip.f ≤ iq.f := by
  cases l with
  | nil => exact absurd rfl hne
  | cons p rest =>
    rcases lowest_f_aux_min cd (p :: rest) 0 USIZE_MAX 0 hcd with ⟨j, fj, hj, _, hcase, hmin⟩
    rcases hcase with ⟨h1, h2⟩ | ⟨k, hk, h2, ip, hip, hfip⟩
    · exfalso
      rcases hcd p (List.mem_cons_self _ _) with ⟨info, hp, hfmax⟩
      have := hmin p (List.mem_cons_self _ _) info hp
      omega
    · subst h2
      refine ⟨k, ip, ?_, hk, hip, ?_⟩
      · show lowest_f_aux cd (p :: rest) 0 USIZE_MAX 0 = some k
        simpa using hj
      · intro q hq iq hiq
        have := hmin q hq iq hiq
        omega

/-! ### `insertCD`, `setClosed`, `closedCount` -/

theorem insertCD_self (cd : CellDetails) (p : Pt) (i : CellInfo) : insertCD cd p i p = some i := by
  simp [insertCD]

theorem insertCD_ne (cd : CellDetails) {p q : Pt} (i : CellInfo) (h : q ≠ p) :
    insertCD cd p i q = cd q := by
  simp [insertCD, h]

theorem setClosed_eq {closed closed2 : List (List Bool)} {x y : Nat}
    (h : setClosed closed x y = some closed2) :
    ∃ row, closed.get? x = some row ∧ y < row.length ∧
      closed2 = closed.set x (row.set y true) := by
  cases hrow : closed.get? x with
  | none =>
    simp only [setClosed, hrow] at h
    exact Option.noConfusion h
  | some row =>
    simp only [setClosed, hrow] at h
    split at h
    · injection h with h
      exact ⟨row, rfl, by assumption, h.symm⟩
    · exact Option.noConfusion h

theorem setClosed_isSome {closed : List (List Bool)} {x y : Nat} {row : List Bool}
    (hrow : closed.get? x = some row) (hy : y < row.length) :
    setClosed closed x y = some (closed.set x (row.set y true)) := by
  unfold setClosed
  rw [hrow]
  simp [hy]

theorem closedAt_set_self {closed : List (List Bool)} {x y : Nat} {row : List Bool}
    (hrow : closed.get? x = some row) (hy : y < row.length) :
    closedAt (closed.set x (row.set y true)) x y = true := by
  have hx : x < closed.length := (List.get?_eq_some.mp hrow).1
  unfold closedAt
  rw [List.get?_set_eq_of_lt _ hx]
  simp only [Option.getD_some]
  rw [List.get?_set_eq_of_lt _ hy]
  rfl

theorem closedAt_set_other {closed : List (List Bool)} {x y : Nat} {row : List Bool}
    (hrow : closed.get? x = some row) {a b : Nat} (hne : ¬(a = x ∧ b = y)) :
    closedAt (closed.set x (row.set y true)) a b = closedAt closed a b := by
  by_cases hax : a = x
  · subst hax
    have hby : b ≠ y := fun hb => hne ⟨rfl, hb⟩
    have hx : a < closed.length := (List.get?_eq_some.mp hrow).1
    unfold closedAt
    rw [List.get?_set_eq_of_lt _ hx, hrow]
    simp only [Option.getD_some]
    rw [List.get?_set_ne _ _ (fun h => hby h.symm)]
  · unfold closedAt
    rw [List.get?_set_ne _ _ (fun h => hax h.symm)]

theorem closedAt_false_get {closed : List (List Bool)} {x y : Nat} {row : List Bool}
    (hrow : closed.get? x = some row) (hy : y < row.length)
    (hfalse : closedAt closed x y = false) : row.get? y = some false := by
  unfold closedAt at hfalse
  rw [hrow] at hfalse
  simp only [Option.getD_some] at hfalse
  cases hb : row.get? y with
  | none =>
    exfalso
    rw [List.get?_eq_none] at hb
    omega
  | some b =>
    rw [hb] at hfalse
    simp only [Option.getD_some] at hfalse
    rw [hfalse]

theorem closedCount_set :
    ∀ (closed : List (List Bool)) (x : Nat) (row v : List Bool),
      closed.get? x = some row →
      closedCount (closed.set x v) + row.count true = closedCount closed + v.count true := by
  intro closed
  induction closed with
  | nil => intro x row v h; exact Option.noConfusion h
  | cons r rest ih =>
    intro x row v h
    cases x with
    | zero =>
      injection h with h
      subst h
      simp only [List.set_cons_zero]
      unfold closedCount
      simp only [List.map_cons, List.sum_cons]
      omega
    | succ x =>
      have h2 : rest.get? x = some row := h
      have := ih x row v h2
      have hset : (r :: rest).set (x + 1) v = r :: rest.set x v := rfl
      rw [hset]
      unfold closedCount at *
      simp only [List.map_cons, List.sum_cons] at *
      omega

theorem count_set_true :
    ∀ (row : List Bool) (y : Nat), y < row.length → row.get? y = some false →
      (row.set y true).count true = row.count true + 1 := by
  intro row
  induction row with
  | nil => intro y h; simp at h
  | cons b rest ih =>
    intro y hy hget
    cases y with
    | zero =>
      injection hget with hget
      subst hget
      simp [List.count_cons]
    | succ y =>
      have := ih y (by simpa using hy) hget
      simp only [List.set_cons_succ, List.count_cons]
      omega

theorem closedCount_setClosed {closed closed2 : List (List Bool)} {x y : Nat}
    (h : setClosed closed x y = some closed2) (hfalse : closedAt closed x y = false) :
    closedCount closed2 = closedCount closed + 1 := by
  rcases setClosed_eq h with ⟨row, hrow, hy, heq⟩
  subst heq
  have hget := closedAt_false_get hrow hy hfalse
  have h1 := closedCount_set closed x row (row.set y true) hrow
  have h2 := count_set_true row y hy hget
  omega

theorem closedCount_le {closed : List (List Bool)} {n : Nat}
    (hlen : closed.length = n) (hrows : ∀ row ∈ closed, row.length = n) :
    closedCount closed ≤ n * n := by
  have haux : ∀ (rows : List (List Bool)), (∀ row ∈ rows, row.count true ≤ n) →
      closedCount rows ≤ rows.length * n := by
    intro rows
    induction rows with
    | nil => intro _; simp [closedCount]
    | cons r rest ih =>
      intro hb
      unfold closedCount at *
      simp only [List.map_cons, List.sum_cons, List.length_cons]
      have h1 := hb r (List.mem_cons_self _ _)
      have h2 := ih (fun row hrow => hb row (List.mem_cons_of_mem _ hrow))
      have : (rest.length + 1) * n = rest.length * n + n := by ring
      omega
  have := haux closed (fun row hrow => by
    have := List.count_le_length (true) row
    rw [hrows row hrow] at this
    exact this)
  rw [hlen] at this
  exact this

theorem get?_replicate_eq {α : Type} (m : Nat) (a : α) (i : Nat) :
    (List.replicate m a).get? i = if i < m then some a else none := by
  rw [List.get?_eq_getElem?, List.getElem?_replicate]

theorem closedAt_replicate (n x y : Nat) :
    closedAt (List.replicate n (List.replicate n false)) x y = false := by
  unfold closedAt
  rw [get?_replicate_eq]
  by_cases hx : x < n
  · rw [if_pos hx]
    simp only [Option.getD_some]
    rw [get?_replicate_eq]
    by_cases hy : y < n
    · rw [if_pos hy]; rfl
    · rw [if_neg hy]; rfl
  · rw [if_neg hx]; rfl

theorem count_true_replicate_false (k : Nat) : (List.replicate k false).count true = 0 := by
  induction k with
  | zero => rfl
  | succ j ih =>
    rw [List.replicate_succ, List.count_cons]
    simp [ih]

theorem closedCount_replicate (n : Nat) :
    closedCount (List.replicate n (List.replicate n false)) = 0 := by
  have haux : ∀ (m k : Nat), closedCount (List.replicate m (List.replicate k false)) = 0 := by
    intro m k
    induction m with
    | zero => rfl
    | succ j ih =>
      unfold closedCount at *
      rw [List.replicate_succ, List.map_cons, List.sum_cons, count_true_replicate_false]
      simpa using ih
  exact haux n n

end Snake

namespace Snake

/-! ### Unfolding lemmas for `processSuccessors` -/

theorem processSuccessors_nil (grid : Grid) (target : Pt) (x y : Nat)
    (cd : CellDetails) (opn : List Pt) (closed : List (List Bool)) :
    processSuccessors grid target x y [] cd opn closed = some (Sum.inr (cd, opn)) := rfl

theorem processSuccessors_cons_closed {grid : Grid} {target : Pt} {x y : Nat}
    {q : Pt} {rest : List Pt} {cd : CellDetails} {opn : List Pt} {closed : List (List Bool)}
    (h : closedAt closed q.1 q.2 = true) :
    processSuccessors grid target x y (q :: rest) cd opn closed =
      processSuccessors grid target x y rest cd opn closed := by
  simp [processSuccessors, h]

theorem processSuccessors_cons_target {grid : Grid} {target : Pt} {x y : Nat}
    {q : Pt} {rest : List Pt} {cd : CellDetails} {opn : List Pt} {closed : List (List Bool)}
    {dirs : List Direction}
    (h : closedAt closed q.1 q.2 = false) (ht : q = target)
    (hgp : generate_path grid q.1 q.2 (insertCD cd q ⟨some (x, y), 0, 0, 0⟩) = some dirs) :
    processSuccessors grid target x y (q :: rest) cd opn closed = some (Sum.inl dirs) := by
  subst ht
  simp [processSuccessors, h, hgp]

theorem processSuccessors_cons_skip {grid : Grid} {target : Pt} {x y : Nat}
    {q : Pt} {rest : List Pt} {cd : CellDetails} {opn : List Pt} {closed : List (List Bool)}
    {info nextInfo : CellInfo}
    (h : closedAt closed q.1 q.2 = false) (ht : q ≠ target)
    (hinfo : cd (x, y) = some info) (hnext : cd q = some nextInfo)
    (hlt : nextInfo.f < info.g + 1 + manhatten_distance q.1 q.2 target.1 target.2) :
    processSuccessors grid target x y (q :: rest) cd opn closed =
      processSuccessors grid target x y rest cd opn closed := by
  simp [processSuccessors, h, ht, hinfo, hnext, hlt]

theorem processSuccessors_cons_update {grid : Grid} {target : Pt} {x y : Nat}
    {q : Pt} {rest : List Pt} {cd : CellDetails} {opn : List Pt} {closed : List (List Bool)}
    {info nextInfo : CellInfo}
    (h : closedAt closed q.1 q.2 = false) (ht : q ≠ target)
    (hinfo : cd (x, y) = some info) (hnext : cd q = some nextInfo)
    (hge : ¬ nextInfo.f < info.g + 1 + manhatten_distance q.1 q.2 target.1 target.2) :
    processSuccessors grid target x y (q :: rest) cd opn closed =
      processSuccessors grid target x y rest
        (insertCD cd q ⟨some (x, y), info.g + 1,
          manhatten_distance q.1 q.2 target.1 target.2,
          info.g + 1 + manhatten_distance q.1 q.2 target.1 target.2⟩) opn closed := by
  simp [processSuccessors, h, ht, hinfo, hnext, hge]

theorem processSuccessors_cons_fresh {grid : Grid} {target : Pt} {x y : Nat}
    {q : Pt} {rest : List Pt} {cd : CellDetails} {opn : List Pt} {closed : List (List Bool)}
    {info : CellInfo}
    (h : closedAt closed q.1 q.2 = false) (ht : q ≠ target)
    (hinfo : cd (x, y) = some info) (hnext : cd q = none) :
    processSuccessors grid target x y (q :: rest) cd opn closed =
      processSuccessors grid target x y rest
        (insertCD cd q ⟨some (x, y), info.g + 1,
          manhatten_distance q.1 q.2 target.1 target.2,
          info.g + 1 + manhatten_distance q.1 q.2 target.1 target.2⟩) (opn ++ [q]) closed := by
  simp [processSuccessors, h, ht, hinfo, hnext]

/-! ### The parent chain of `generate_path` -/

theorem generate_path_aux_spec (grid : Grid) (start : Pt) (cd : CellDetails)
    (closed : List (List Bool))
    (hdom : ∀ p : Pt, ∀ i : CellInfo, closedAt closed p.1 p.2 = true → cd p = some i →
      p = start ∨ (isTraversable grid p.1 p.2 = true ∧ inSq grid p))
    (hCC : ∀ p i, closedAt closed p.1 p.2 = true → cd p = some i →
      (i.parent = none → p = start) ∧
      (∀ q, i.parent = some q → closedAt closed q.1 q.2 = true ∧ orthAdj q p ∧
        ∃ qi, cd q = some qi ∧ i.g = qi.g + 1))
    (hstartrec : ∀ i, cd start = some i → i = CellInfo.dflt) :
    ∀ g : Nat, ∀ p : Pt, ∀ i, closedAt closed p.1 p.2 = true → cd p = some i → i.g = g →
      ∀ fuel acc, g + 1 ≤ fuel →
        ∃ ds, generate_path_aux cd fuel p.1 p.2 acc = some (acc ++ ds) ∧
          ds.length = g ∧ PathTraces grid start ds.reverse p := by
  intro g
  induction g using Nat.strong_induction_on with
  | _ g IH =>
    intro p i hpc hpcd hg fuel acc hfuel
    cases fuel with
    | zero => omega
    | succ fu =>
      have hpcd2 : cd (p.1, p.2) = some i := hpcd
      cases hpar : i.parent with
      | none =>
        have hps : p = start := (hCC p i hpc hpcd).1 hpar
        have hg0 : i.g = 0 := by
          have hd := hstartrec i (hps ▸ hpcd)
          rw [hd]
          rfl
        refine ⟨[], ?_, ?_, ?_⟩
        · simp [generate_path_aux, hpcd2, hpar]
        · simp only [List.length_nil]
          omega
        · rw [List.reverse_nil, ← hps]
          exact PathTraces.nil p
      | some q =>
        obtain ⟨hqc, hadj, qi, hqcd, hgeq⟩ := (hCC p i hpc hpcd).2 q hpar
        have hpns : p ≠ start := by
          intro he
          have hd := hstartrec i (he ▸ hpcd)
          rw [hd] at hpar
          exact Option.noConfusion hpar
        have hptrav : isTraversable grid p.1 p.2 = true ∧ inSq grid p :=
          (hdom p i hpc hpcd).resolve_left hpns
        obtain ⟨ds2, hds2, hlen2, htr2⟩ :=
          IH qi.g (by omega) q qi hqc hqcd rfl fu
            (acc ++ [get_direction q.1 q.2 p.1 p.2]) (by omega)
        refine ⟨get_direction q.1 q.2 p.1 p.2 :: ds2, ?_, ?_, ?_⟩
        · have hred : generate_path_aux cd (fu + 1) p.1 p.2 acc =
              generate_path_aux cd fu q.1 q.2 (acc ++ [get_direction q.1 q.2 p.1 p.2]) := by
            simp [generate_path_aux, hpcd2, hpar]
          rw [hred, hds2]
          simp
        · simp only [List.length_cons]
          omega
        · rw [List.reverse_cons]
          exact htr2.snoc hadj hptrav.1 hptrav.2

end Snake

namespace Snake

/-! ### The search invariant -/

/-- Invariant of the `solve` loop state.  `grid`, `target` and `start` are
the fixed parameters of one `solve` call. -/
structure Inv (grid : Grid) (target start : Pt) (st : SearchState) : Prop where
  hstart1 : start.1 < grid.length
  hstart2 : start.2 < grid.length
  htarget_cd : st.cd target = none ∨ target = start
  hopen_nodup : st.openList.Nodup
  hopen_cd : ∀ p ∈ st.openList, st.cd p ≠ none
  hopen_unclosed : ∀ p ∈ st.openList, closedAt st.closed p.1 p.2 = false
  hrec : ∀ p : Pt, st.cd p ≠ none → p ∈ st.openList ∨ closedAt st.closed p.1 p.2 = true
  hdom : ∀ p : Pt, st.cd p ≠ none → p = start ∨
    (p.1 < grid.length ∧ p.2 < grid.length ∧ isTraversable grid p.1 p.2 = true)
  hclosed_cd : ∀ p : Pt, closedAt st.closed p.1 p.2 = true → st.cd p ≠ none
  hdim1 : st.closed.length = grid.length
  hdim2 : ∀ row ∈ st.closed, row.length = grid.length
  hchain : ∀ p i, st.cd p = some i →
    (i.parent = none → p = start) ∧
    (∀ q : Pt, i.parent = some q → closedAt st.closed q.1 q.2 = true ∧ orthAdj q p ∧
      ∃ qi, st.cd q = some qi ∧ i.g = qi.g + 1)
  hstartrec : ∀ i, st.cd start = some i → i = CellInfo.dflt
  hg_closed : ∀ p i, st.cd p = some i → closedAt st.closed p.1 p.2 = true →
    i.g + 1 ≤ closedCount st.closed
  hg_all : ∀ p i, st.cd p = some i → i.g ≤ closedCount st.closed
  hfg : ∀ p i, st.cd p = some i → i.f = i.g + i.h ∧
    (p ≠ start → i.h = manhatten_distance p.1 p.2 target.1 target.2)
  hinit : closedAt st.closed start.1 start.2 = false → st = initState start grid

/-- Invariant of the successor-processing fold inside one loop iteration.
`P`/`iP` are the just-popped cell and its (frozen) record, `closed` the
closed list with `P` already marked, `cd0` the cell details before the
iteration. -/
structure FoldInv (grid : Grid) (target start P : Pt) (iP : CellInfo)
    (closed : List (List Bool)) (cd0 : CellDetails)
    (cd : CellDetails) (opn : List Pt) : Prop where
  hstart1 : start.1 < grid.length
  hstart2 : start.2 < grid.length
  hP : cd P = some iP
  hPclosed : closedAt closed P.1 P.2 = true
  htarget_cd : cd target = none ∨ target = start
  hnodup : opn.Nodup
  hopen_cd : ∀ p ∈ opn, cd p ≠ none
  hopen_unclosed : ∀ p ∈ opn, closedAt closed p.1 p.2 = false
  hrec : ∀ p : Pt, cd p ≠ none → p ∈ opn ∨ closedAt closed p.1 p.2 = true
  hdom : ∀ p : Pt, cd p ≠ none → p = start ∨
    (p.1 < grid.length ∧ p.2 < grid.length ∧ isTraversable grid p.1 p.2 = true)
  hclosed_cd : ∀ p : Pt, closedAt closed p.1 p.2 = true → cd p ≠ none
  hdim1 : closed.length = grid.length
  hdim2 : ∀ row ∈ closed, row.length = grid.length
  hchain : ∀ p i, cd p = some i →
    (i.parent = none → p = start) ∧
    (∀ q : Pt, i.parent = some q → closedAt closed q.1 q.2 = true ∧ orthAdj q p ∧
      ∃ qi, cd q = some qi ∧ i.g = qi.g + 1)
  hstartrec : ∀ i, cd start = some i → i = CellInfo.dflt
  hstart_closed : closedAt closed start.1 start.2 = true
  hg_closed : ∀ p i, cd p = some i → closedAt closed p.1 p.2 = true →
    i.g + 1 ≤ closedCount closed
  hg_all : ∀ p i, cd p = some i → i.g ≤ closedCount closed
  hfg : ∀ p i, cd p = some i → i.f = i.g + i.h ∧
    (p ≠ start → i.h = manhatten_distance p.1 p.2 target.1 target.2)
  hpres : ∀ p : Pt, closedAt closed p.1 p.2 = true → cd p = cd0 p
  hfmono : ∀ p i i2, cd0 p = some i → cd p = some i2 → i2.f ≤ i.f ∧ i2.g ≤ i.g
  hext : ∀ p : Pt, cd0 p ≠ none → cd p ≠ none

theorem generate_path_target {grid : Grid} {target start P : Pt} {iP : CellInfo}
    {closed : List (List Bool)} {cd0 cd : CellDetails} {opn : List Pt}
    (FI : FoldInv grid target start P iP closed cd0 cd opn)
    (htc : closedAt closed target.1 target.2 = false)
    (hgbound : iP.g + 1 ≤ grid.length * grid.length + 1)
    (hadj : orthAdj P target)
    (httrav : isTraversable grid target.1 target.2 = true) (htin : inSq grid target) :
    ∃ ds2, generate_path grid target.1 target.2
        (insertCD cd target ⟨some (P.1, P.2), 0, 0, 0⟩) =
          some (get_direction P.1 P.2 target.1 target.2 :: ds2) ∧
      ds2.length = iP.g ∧
      PathTraces grid start (get_direction P.1 P.2 target.1 target.2 :: ds2).reverse target := by
  have hsnt : start ≠ target := by
    intro he
    have hsc := FI.hstart_closed
    rw [he] at hsc
    rw [htc] at hsc
    exact Bool.noConfusion hsc
  have hPnt : P ≠ target := by
    intro he
    have hpc := FI.hPclosed
    rw [he] at hpc
    rw [htc] at hpc
    exact Bool.noConfusion hpc
  have hpres2 : ∀ p : Pt, closedAt closed p.1 p.2 = true →
      insertCD cd target ⟨some (P.1, P.2), 0, 0, 0⟩ p = cd p := by
    intro p hp
    apply insertCD_ne
    intro he
    rw [he, htc] at hp
    exact Bool.noConfusion hp
  have hdom2 : ∀ p : Pt, ∀ i : CellInfo, closedAt closed p.1 p.2 = true →
      insertCD cd target ⟨some (P.1, P.2), 0, 0, 0⟩ p = some i →
      p = start ∨ (isTraversable grid p.1 p.2 = true ∧ inSq grid p) := by
    intro p i hp hcd
    rw [hpres2 p hp] at hcd
    rcases FI.hdom p (by rw [hcd]; exact fun h => Option.noConfusion h) with h1 | ⟨h1, h2, h3⟩
    · exact Or.inl h1
    · exact Or.inr ⟨h3, h1, h2⟩
  have hCC2 : ∀ p i, closedAt closed p.1 p.2 = true →
      insertCD cd target ⟨some (P.1, P.2), 0, 0, 0⟩ p = some i →
      (i.parent = none → p = start) ∧
      (∀ q : Pt, i.parent = some q → closedAt closed q.1 q.2 = true ∧ orthAdj q p ∧
        ∃ qi, insertCD cd target ⟨some (P.1, P.2), 0, 0, 0⟩ q = some qi ∧
          i.g = qi.g + 1) := by
    intro p i hp hcd
    rw [hpres2 p hp] at hcd
    rcases FI.hchain p i hcd with ⟨h1, h2⟩
    refine ⟨h1, ?_⟩
    intro q hq
    rcases h2 q hq with ⟨hqc, hqadj, qi, hqcd, hqg⟩
    exact ⟨hqc, hqadj, qi, by rw [hpres2 q hqc]; exact hqcd, hqg⟩
  have hstartrec2 : ∀ i, insertCD cd target ⟨some (P.1, P.2), 0, 0, 0⟩ start = some i →
      i = CellInfo.dflt := by
    intro i hcd
    rw [insertCD_ne _ _ hsnt] at hcd
    exact FI.hstartrec i hcd
  have hPcd2 : insertCD cd target ⟨some (P.1, P.2), 0, 0, 0⟩ P = some iP := by
    rw [insertCD_ne _ _ hPnt]
    exact FI.hP
  obtain ⟨ds2, hds2, hlen2, htr2⟩ :=
    generate_path_aux_spec grid start (insertCD cd target ⟨some (P.1, P.2), 0, 0, 0⟩)
      closed hdom2 hCC2 hstartrec2 iP.g P iP FI.hPclosed hPcd2 rfl
      (grid.length * grid.length + 1)
      [get_direction P.1 P.2 target.1 target.2] (by omega)
  refine ⟨ds2, ?_, hlen2, ?_⟩
  · have hct : insertCD cd target ⟨some (P.1, P.2), 0, 0, 0⟩ (target.1, target.2) =
        some ⟨some (P.1, P.2), 0, 0, 0⟩ := insertCD_self cd target _
    have hred : generate_path grid target.1 target.2
        (insertCD cd target ⟨some (P.1, P.2), 0, 0, 0⟩) =
        generate_path_aux (insertCD cd target ⟨some (P.1, P.2), 0, 0, 0⟩)
          (grid.length * grid.length + 1) P.1 P.2
          ([] ++ [get_direction P.1 P.2 target.1 target.2]) := by
      simp [generate_path, generate_path_aux, hct]
    rw [hred]
    simp only [List.nil_append] at hds2 ⊢
    rw [hds2]
    simp
  · rw [List.reverse_cons]
    exact htr2.snoc hadj httrav htin

end Snake

namespace Snake

theorem insertCD_ne_none {cd : CellDetails} {q p : Pt} {i : CellInfo}
    (h : cd p ≠ none) : insertCD cd q i p ≠ none := by
  unfold insertCD
  split
  · exact fun hc => Option.noConfusion hc
  · exact h

theorem FoldInv.insert {grid : Grid} {target start P : Pt} {iP : CellInfo}
    {closed : List (List Bool)} {cd0 cd : CellDetails} {opn : List Pt}
    (FI : FoldInv grid target start P iP closed cd0 cd opn)
    {q : Pt} (hqu : closedAt closed q.1 q.2 = false) (hqnt : q ≠ target)
    (hqadj : orthAdj P q) (hq1 : q.1 < grid.length) (hq2 : q.2 < grid.length)
    (hqtrav : isTraversable grid q.1 q.2 = true)
    {opn2 : List Pt}
    (hcase : (cd q = none ∧ opn2 = opn ++ [q]) ∨
      (∃ old, cd q = some old ∧
        iP.g + 1 + manhatten_distance q.1 q.2 target.1 target.2 ≤ old.f ∧ opn2 = opn)) :
    FoldInv grid target start P iP closed cd0
      (insertCD cd q ⟨some (P.1, P.2), iP.g + 1,
        manhatten_distance q.1 q.2 target.1 target.2,
        iP.g + 1 + manhatten_distance q.1 q.2 target.1 target.2⟩) opn2 ∧ q ∈ opn2 := by
  set newInfo : CellInfo := ⟨some (P.1, P.2), iP.g + 1,
    manhatten_distance q.1 q.2 target.1 target.2,
    iP.g + 1 + manhatten_distance q.1 q.2 target.1 target.2⟩ with hnewInfo
  have hqP : q ≠ P := by
    intro he
    rw [he, FI.hPclosed] at hqu
    exact Bool.noConfusion hqu
  have hqs : q ≠ start := by
    intro he
    rw [he, FI.hstart_closed] at hqu
    exact Bool.noConfusion hqu
  have hcd2q : insertCD cd q newInfo q = some newInfo := insertCD_self cd q newInfo
  have hcd2ne : ∀ p : Pt, p ≠ q → insertCD cd q newInfo p = cd p :=
    fun p hp => insertCD_ne cd newInfo hp
  have hqmem : q ∈ opn2 := by
    rcases hcase with ⟨hnone, heq⟩ | ⟨old, hold, hle, heq⟩
    · rw [heq]
      simp
    · rw [heq]
      rcases FI.hrec q (by rw [hold]; exact fun h => Option.noConfusion h) with h1 | h1
      · exact h1
      · rw [h1] at hqu
        exact Bool.noConfusion hqu
  have hopnsub : ∀ p ∈ opn, p ∈ opn2 := by
    rcases hcase with ⟨_, heq⟩ | ⟨_, _, _, heq⟩
    · rw [heq]
      exact fun p hp => List.mem_append_left _ hp
    · rw [heq]
      exact fun p hp => hp
  have hopn2mem : ∀ p ∈ opn2, p ∈ opn ∨ p = q := by
    rcases hcase with ⟨_, heq⟩ | ⟨_, _, _, heq⟩
    · rw [heq]
      intro p hp
      rcases List.mem_append.mp hp with h1 | h1
      · exact Or.inl h1
      · exact Or.inr (List.mem_singleton.mp h1)
    · rw [heq]
      exact fun p hp => Or.inl hp
  refine ⟨?_, hqmem⟩
  refine
    { hstart1 := FI.hstart1
      hstart2 := FI.hstart2
      hP := by rw [hcd2ne P (fun h => hqP h.symm)]; exact FI.hP
      hPclosed := FI.hPclosed
      htarget_cd := by
        rw [hcd2ne target (fun h => hqnt h.symm)]
        exact FI.htarget_cd
      hnodup := ?_
      hopen_cd := ?_
      hopen_unclosed := ?_
      hrec := ?_
      hdom := ?_
      hclosed_cd := ?_
      hdim1 := FI.hdim1
      hdim2 := FI.hdim2
      hchain := ?_
      hstartrec := by
        rw [hcd2ne start (fun h => hqs h.symm)]
        exact FI.hstartrec
      hstart_closed := FI.hstart_closed
      hg_closed := ?_
      hg_all := ?_
      hfg := ?_
      hpres := ?_
      hfmono := ?_
      hext := fun p hp => insertCD_ne_none (FI.hext p hp) }
  · -- hnodup
    rcases hcase with ⟨hnone, heq⟩ | ⟨_, _, _, heq⟩
    · rw [heq, List.nodup_append]
      refine ⟨FI.hnodup, List.nodup_singleton _, ?_⟩
      intro a ha hb
      rw [List.mem_singleton.mp hb] at ha
      exact FI.hopen_cd q ha hnone
    · rw [heq]
      exact FI.hnodup
  · -- hopen_cd
    intro p hp
    rcases hopn2mem p hp with h1 | h1
    · exact insertCD_ne_none (FI.hopen_cd p h1)
    · rw [h1, hcd2q]
      exact fun h => Option.noConfusion h
  · -- hopen_unclosed
    intro p hp
    rcases hopn2mem p hp with h1 | h1
    · exact FI.hopen_unclosed p h1
    · rw [h1]
      exact hqu
  · -- hrec
    intro p hp
    by_cases hpq : p = q
    · exact Or.inl (hpq ▸ hqmem)
    · rw [hcd2ne p hpq] at hp
      rcases FI.hrec p hp with h1 | h1
      · exact Or.inl (hopnsub p h1)
      · exact Or.inr h1
  · -- hdom
    intro p hp
    by_cases hpq : p = q
    · subst hpq
      exact Or.inr ⟨hq1, hq2, hqtrav⟩
    · rw [hcd2ne p hpq] at hp
      exact FI.hdom p hp
  · -- hclosed_cd
    intro p hp
    exact insertCD_ne_none (FI.hclosed_cd p hp)
  · -- hchain
    intro p i hp
    by_cases hpq : p = q
    · subst hpq
      rw [hcd2q] at hp
      injection hp with hp
      subst hp
      constructor
      · intro hcon
        exact Option.noConfusion hcon
      · intro r hr
        have hrP : r = (P.1, P.2) := by
          injection hr with hr
          exact hr.symm
        subst hrP
        refine ⟨FI.hPclosed, hqadj, iP, ?_, rfl⟩
        rw [hcd2ne (P.1, P.2) (fun h => hqP h.symm)]
        exact FI.hP
    · rw [hcd2ne p hpq] at hp
      rcases FI.hchain p i hp with ⟨h1, h2⟩
      refine ⟨h1, ?_⟩
      intro r hr
      rcases h2 r hr with ⟨hrc, hradj, qi, hrcd, hrg⟩
      have hrq : r ≠ q := by
        intro he
        rw [he, hqu] at hrc
        exact Bool.noConfusion hrc
      exact ⟨hrc, hradj, qi, by rw [hcd2ne r hrq]; exact hrcd, hrg⟩
  · -- hg_closed
    intro p i hp hpc
    by_cases hpq : p = q
    · rw [hpq, hqu] at hpc
      exact Bool.noConfusion hpc
    · rw [hcd2ne p hpq] at hp
      exact FI.hg_closed p i hp hpc
  · -- hg_all
    intro p i hp
    by_cases hpq : p = q
    · subst hpq
      rw [hcd2q] at hp
      injection hp with hp
      subst hp
      exact FI.hg_closed P iP FI.hP FI.hPclosed
    · rw [hcd2ne p hpq] at hp
      exact FI.hg_all p i hp
  · -- hfg
    intro p i hp
    by_cases hpq : p = q
    · subst hpq
      rw [hcd2q] at hp
      injection hp with hp
      subst hp
      exact ⟨rfl, fun _ => rfl⟩
    · rw [hcd2ne p hpq] at hp
      exact FI.hfg p i hp
  · -- hpres
    intro p hp
    have hpq : p ≠ q := by
      intro he
      rw [he, hqu] at hp
      exact Bool.noConfusion hp
    rw [hcd2ne p hpq]
    exact FI.hpres p hp
  · -- hfmono
    intro p i i2 hp hp2
    by_cases hpq : p = q
    · subst hpq
      rw [hcd2q] at hp2
      injection hp2 with hp2
      subst hp2
      rcases hcase with ⟨hnone, _⟩ | ⟨old, hold, hle, _⟩
      · exfalso
        exact FI.hext p (by rw [hp]; exact fun h => Option.noConfusion h) hnone
      · rcases FI.hfmono p i old hp hold with ⟨hf1, hg1⟩
        rcases FI.hfg p old hold with ⟨hfg1, hh1⟩
        have hh2 : old.h = manhatten_distance p.1 p.2 target.1 target.2 := hh1 hqs
        constructor
        · show iP.g + 1 + manhatten_distance p.1 p.2 target.1 target.2 ≤ i.f
          omega
        · show iP.g + 1 ≤ i.g
          omega
    · rw [hcd2ne p hpq] at hp2
      exact FI.hfmono p i i2 hp hp2

end Snake

namespace Snake

/-- Processing a list of (traversable, in-bounds, adjacent) successors of
the popped cell either returns a reconstructed path to the target or
preserves the fold invariant, recording each unclosed successor with a
cost of at most `iP.g + 1` and keeping it on the open list. -/
theorem processSuccessors_spec (grid : Grid) (target start P : Pt) (iP : CellInfo)
    (closed : List (List Bool)) (cd0 : CellDetails) :
    ∀ (ss : List Pt) (cd : CellDetails) (opn : List Pt),
      FoldInv grid target start P iP closed cd0 cd opn →
      (∀ q ∈ ss, orthAdj P q ∧ q.1 < grid.length ∧ q.2 < grid.length ∧
        isTraversable grid q.1 q.2 = true) →
      (∃ dirs, processSuccessors grid target P.1 P.2 ss cd opn closed = some (Sum.inl dirs) ∧
         dirs.length = iP.g + 1 ∧ orthAdj P target ∧
         PathTraces grid start dirs.reverse target) ∨
      (∃ cd2 opn2, processSuccessors grid target P.1 P.2 ss cd opn closed =
          some (Sum.inr (cd2, opn2)) ∧
         FoldInv grid target start P iP closed cd0 cd2 opn2 ∧
         (∀ p ∈ opn, p ∈ opn2) ∧
         (∀ p i, cd p = some i → ∃ i2, cd2 p = some i2 ∧ (i2 = i ∨ i2.g = iP.g + 1)) ∧
         (∀ q ∈ ss, closedAt closed q.1 q.2 = false → q ≠ target ∧
           ∃ i2, cd2 q = some i2 ∧ i2.g ≤ iP.g + 1 ∧ q ∈ opn2)) := by
  intro ss
  induction ss with
  | nil =>
    intro cd opn FI _
    refine Or.inr ⟨cd, opn, processSuccessors_nil _ _ _ _ _ _ _, FI, fun p hp => hp, ?_, ?_⟩
    · exact fun p i hp => ⟨i, hp, Or.inl rfl⟩
    · intro q hq
      exact absurd hq (List.not_mem_nil q)
  | cons q rest ih =>
    intro cd opn FI hss
    obtain ⟨hqadj, hq1, hq2, hqtrav⟩ := hss q (List.mem_cons_self _ _)
    have hssrest : ∀ r ∈ rest, orthAdj P r ∧ r.1 < grid.length ∧ r.2 < grid.length ∧
        isTraversable grid r.1 r.2 = true :=
      fun r hr => hss r (List.mem_cons_of_mem _ hr)
    by_cases hqc : closedAt closed q.1 q.2 = true
    · -- successor already closed: skipped
      rw [processSuccessors_cons_closed hqc]
      rcases ih cd opn FI hssrest with h | ⟨cd2, opn2, heq, FI2, hmono, hrecords, hsucc⟩
      · exact Or.inl h
      · refine Or.inr ⟨cd2, opn2, heq, FI2, hmono, hrecords, ?_⟩
        intro r hr hru
        rcases List.mem_cons.mp hr with heq2 | hr2
        · subst heq2
          rw [hqc] at hru
          exact Bool.noConfusion hru
        · exact hsucc r hr2 hru
    · have hqu : closedAt closed q.1 q.2 = false := by
        cases h : closedAt closed q.1 q.2
        · rfl
        · exact absurd h hqc
      by_cases hqt : q = target
      · -- the target is generated: early return with the reconstructed path
        subst hqt
        have hgb : iP.g + 1 ≤ grid.length * grid.length + 1 := by
          have h1 := FI.hg_all P iP FI.hP
          have h2 := closedCount_le FI.hdim1 FI.hdim2
          omega
        obtain ⟨ds2, hgp, hlen2, htr2⟩ :=
          generate_path_target FI hqu hgb hqadj hqtrav ⟨hq1, hq2⟩
        rw [processSuccessors_cons_target hqu rfl hgp]
        refine Or.inl ⟨_, rfl, ?_, hqadj, htr2⟩
        simp only [List.length_cons]
        omega
      · have hinfo : cd (P.1, P.2) = some iP := FI.hP
        have hqs : q ≠ start := by
          intro he
          rw [he, FI.hstart_closed] at hqu
          exact Bool.noConfusion hqu
        cases hqcd : cd q with
        | none =>
          -- fresh successor: insert the record and push onto the open list
          rw [processSuccessors_cons_fresh hqu hqt hinfo hqcd]
          obtain ⟨FI1, hqmem1⟩ := FI.insert hqu hqt hqadj hq1 hq2 hqtrav
            (Or.inl ⟨hqcd, rfl⟩)
          rcases ih _ _ FI1 hssrest with h | ⟨cd2, opn2, heq, FI2, hmono, hrecords, hsucc⟩
          · exact Or.inl h
          · refine Or.inr ⟨cd2, opn2, heq, FI2, ?_, ?_, ?_⟩
            · intro p hp
              exact hmono p (List.mem_append_left _ hp)
            · intro p i hp
              have hpq : p ≠ q := by
                intro he
                rw [he, hqcd] at hp
                exact Option.noConfusion hp
              exact hrecords p i (by rw [insertCD_ne cd _ hpq]; exact hp)
            · intro r hr hru
              rcases List.mem_cons.mp hr with heq2 | hr2
              · subst heq2
                refine ⟨hqt, ?_⟩
                rcases hrecords r _ (insertCD_self cd r _) with ⟨i2, hi2, hcase2⟩
                refine ⟨i2, hi2, ?_, hmono r hqmem1⟩
                rcases hcase2 with h3 | h3
                · rw [h3]
                · omega
              · exact hsucc r hr2 hru
        | some old =>
          by_cases hlt : old.f < iP.g + 1 + manhatten_distance q.1 q.2 target.1 target.2
          · -- existing record has strictly lower f: successor skipped
            rw [processSuccessors_cons_skip hqu hqt hinfo hqcd hlt]
            have holdg : old.g ≤ iP.g + 1 := by
              rcases FI.hfg q old hqcd with ⟨hf1, hh1⟩
              have hh2 := hh1 hqs
              omega
            have hqopen : q ∈ opn := by
              rcases FI.hrec q (by rw [hqcd]; exact fun h => Option.noConfusion h) with h1 | h1
              · exact h1
              · rw [h1] at hqu
                exact Bool.noConfusion hqu
            rcases ih cd opn FI hssrest with h | ⟨cd2, opn2, heq, FI2, hmono, hrecords, hsucc⟩
            · exact Or.inl h
            · refine Or.inr ⟨cd2, opn2, heq, FI2, hmono, hrecords, ?_⟩
              intro r hr hru
              rcases List.mem_cons.mp hr with heq2 | hr2
              · subst heq2
                refine ⟨hqt, ?_⟩
                rcases hrecords r old hqcd with ⟨i2, hi2, hcase2⟩
                refine ⟨i2, hi2, ?_, hmono r hqopen⟩
                rcases hcase2 with h3 | h3
                · rw [h3]; exact holdg
                · omega
              · exact hsucc r hr2 hru
          · -- update the record (new f is not worse)
            rw [processSuccessors_cons_update hqu hqt hinfo hqcd hlt]
            obtain ⟨FI1, hqmem1⟩ := FI.insert hqu hqt hqadj hq1 hq2 hqtrav
              (Or.inr ⟨old, hqcd, by omega, rfl⟩)
            rcases ih _ _ FI1 hssrest with h | ⟨cd2, opn2, heq, FI2, hmono, hrecords, hsucc⟩
            · exact Or.inl h
            · refine Or.inr ⟨cd2, opn2, heq, FI2, hmono, ?_, ?_⟩
              · intro p i hp
                by_cases hpq : p = q
                · subst hpq
                  rcases hrecords p _ (insertCD_self cd p _) with ⟨i2, hi2, hcase2⟩
                  refine ⟨i2, hi2, Or.inr ?_⟩
                  rcases hcase2 with h3 | h3
                  · rw [h3]
                  · exact h3
                · exact hrecords p i (by rw [insertCD_ne cd _ hpq]; exact hp)
              · intro r hr hru
                rcases List.mem_cons.mp hr with heq2 | hr2
                · subst heq2
                  refine ⟨hqt, ?_⟩
                  rcases hrecords r _ (insertCD_self cd r _) with ⟨i2, hi2, hcase2⟩
                  refine ⟨i2, hi2, ?_, hmono r hqmem1⟩
                  rcases hcase2 with h3 | h3
                  · rw [h3]
                  · omega
                · exact hsucc r hr2 hru

end Snake

namespace Snake

/-- What one loop iteration guarantees when it returns a path (the early
return on generating the target as a successor). -/
structure StepInl (grid : Grid) (target start : Pt) (st : SearchState)
    (dirs : List Direction) (P : Pt) (iP : CellInfo) : Prop where
  hPdef : ∃ j, lowest_f st.openList st.cd = some j ∧ P = st.openList.getD j (0, 0)
  hmem : P ∈ st.openList
  hcd : st.cd P = some iP
  hunclosed : closedAt st.closed P.1 P.2 = false
  hadj : orthAdj P target
  hlen : dirs.length = iP.g + 1
  htrace : PathTraces grid start dirs.reverse target
  hmin : (∀ p ∈ st.openList, ∃ ip, st.cd p = some ip ∧ ip.f < USIZE_MAX) →
    ∀ p ip, p ∈ st.openList → st.cd p = some ip → iP.f ≤ ip.f

/-- What one loop iteration guarantees when it continues with a new
state. -/
structure StepInr (grid : Grid) (target start : Pt) (st st2 : SearchState)
    (P : Pt) (iP : CellInfo) : Prop where
  hPdef : ∃ j, lowest_f st.openList st.cd = some j ∧ P = st.openList.getD j (0, 0)
  hinv2 : Inv grid target start st2
  hmem : P ∈ st.openList
  hcd : st.cd P = some iP
  hunclosed : closedAt st.closed P.1 P.2 = false
  hcount : closedCount st2.closed = closedCount st.closed + 1
  hclosed_pres : ∀ p : Pt, closedAt st.closed p.1 p.2 = true →
    st2.cd p = st.cd p ∧ closedAt st2.closed p.1 p.2 = true
  hclosedAt2 : ∀ p : Pt, closedAt st2.closed p.1 p.2 = true ↔
    (closedAt st.closed p.1 p.2 = true ∨ p = P)
  hmono : ∀ p i i2, st.cd p = some i → st2.cd p = some i2 → i2.f ≤ i.f ∧ i2.g ≤ i.g
  hopen2 : ∀ p ∈ st.openList, p ≠ P → p ∈ st2.openList
  hsucc : ∀ q ∈ successorsOf P.1 P.2 grid, closedAt st.closed q.1 q.2 = false →
    q ≠ target ∧ ∃ i2, st2.cd q = some i2 ∧ i2.g ≤ iP.g + 1 ∧ q ∈ st2.openList
  hmin : (∀ p ∈ st.openList, ∃ ip, st.cd p = some ip ∧ ip.f < USIZE_MAX) →
    ∀ p ip, p ∈ st.openList → st.cd p = some ip → iP.f ≤ ip.f

/-- One iteration of the search loop, on any state satisfying the
invariant, either returns a valid reconstructed path or steps to a state
that again satisfies the invariant and closes exactly one more cell. -/
theorem astarStep_spec {grid : Grid} {target start : Pt} {st : SearchState}
    (hInv : Inv grid target start st) (hne : st.openList ≠ []) :
    (astarStep grid target st = none ∧
      ∃ P ∈ st.openList, generate_successors P.1 P.2 grid = none) ∨
    (∃ dirs P iP, astarStep grid target st = some (Sum.inl dirs) ∧
      StepInl grid target start st dirs P iP) ∨
    (∃ st2 P iP, astarStep grid target st = some (Sum.inr st2) ∧
      StepInr grid target start st st2 P iP) := by
  obtain ⟨j, hj, hjlt⟩ := lowest_f_lt hne hInv.hopen_cd
  set P : Pt := st.openList.getD j (0, 0) with hP
  have hPmem : P ∈ st.openList := getD_mem_of_lt hjlt
  cases hcdP : st.cd P with
  | none => exact absurd hcdP (hInv.hopen_cd P hPmem)
  | some iP =>
  have hPunclosed : closedAt st.closed P.1 P.2 = false := hInv.hopen_unclosed P hPmem
  have hminP : (∀ p ∈ st.openList, ∃ ip, st.cd p = some ip ∧ ip.f < USIZE_MAX) →
      ∀ p ip, p ∈ st.openList → st.cd p = some ip → iP.f ≤ ip.f := by
    intro hall p ip hp hip
    obtain ⟨j2, ip2, hj2, _, hcd2, hmin2⟩ := lowest_f_min hne hall
    have hjj : j2 = j := by
      rw [hj] at hj2
      injection hj2 with h
      exact h.symm
    subst hjj
    rw [← hP] at hcd2
    rw [hcdP] at hcd2
    injection hcd2 with hcd2
    subst hcd2
    exact hmin2 p hp ip hip
  have hPbounds : P.1 < grid.length ∧ P.2 < grid.length := by
    rcases hInv.hdom P (by rw [hcdP]; exact fun h => Option.noConfusion h) with h1 | ⟨h1, h2, _⟩
    · rw [h1]
      exact ⟨hInv.hstart1, hInv.hstart2⟩
    · exact ⟨h1, h2⟩
  have hxlt : P.1 < st.closed.length := by
    rw [hInv.hdim1]
    exact hPbounds.1
  have hrow : st.closed.get? P.1 = some (st.closed.get ⟨P.1, hxlt⟩) := List.get?_eq_get hxlt
  have hrowlen : (st.closed.get ⟨P.1, hxlt⟩).length = grid.length :=
    hInv.hdim2 _ (List.get_mem _ _ _)
  have hsetC : setClosed st.closed P.1 P.2 =
      some (st.closed.set P.1 ((st.closed.get ⟨P.1, hxlt⟩).set P.2 true)) :=
    setClosed_isSome hrow (by rw [hrowlen]; exact hPbounds.2)
  set closed1 := st.closed.set P.1 ((st.closed.get ⟨P.1, hxlt⟩).set P.2 true) with hclosed1
  have hC1self : closedAt closed1 P.1 P.2 = true :=
    closedAt_set_self hrow (by rw [hrowlen]; exact hPbounds.2)
  have hC1other : ∀ a b : Nat, ¬(a = P.1 ∧ b = P.2) →
      closedAt closed1 a b = closedAt st.closed a b :=
    fun a b hne2 => closedAt_set_other hrow hne2
  have hCpt : ∀ p : Pt, closedAt closed1 p.1 p.2 = true ↔
      (closedAt st.closed p.1 p.2 = true ∨ p = P) := by
    intro p
    by_cases hp : p = P
    · subst hp
      simp [hC1self]
    · have hne2 : ¬(p.1 = P.1 ∧ p.2 = P.2) := by
        intro ⟨h1, h2⟩
        exact hp (Prod.ext h1 h2)
      rw [hC1other p.1 p.2 hne2]
      constructor
      · exact fun h => Or.inl h
      · intro h
        rcases h with h | h
        · exact h
        · exact absurd h hp
  have hcount1 : closedCount closed1 = closedCount st.closed + 1 :=
    closedCount_setClosed hsetC hPunclosed
  have hdim1b : closed1.length = grid.length := by
    rw [hclosed1, List.length_set]
    exact hInv.hdim1
  have hdim2b : ∀ row ∈ closed1, row.length = grid.length := by
    intro row hrow2
    rcases List.mem_or_eq_of_mem_set hrow2 with h1 | h1
    · exact hInv.hdim2 row h1
    · rw [h1, List.length_set]
      exact hrowlen
  set open1 := swap_remove st.openList j with hopen1
  have hnodup1 : open1.Nodup ∧ P ∉ open1 := by
    have := swap_remove_nodup hjlt hInv.hopen_nodup
    exact ⟨this.1, this.2⟩
  have hmem1 : ∀ p ∈ open1, p ∈ st.openList := fun p hp => mem_of_mem_swap_remove hjlt hp
  have hmem1' : ∀ p ∈ st.openList, p ≠ P → p ∈ open1 :=
    fun p hp hnep => mem_swap_remove_of_ne hjlt hp hnep
  have hmemne : ∀ p ∈ open1, p ≠ P := by
    intro p hp he
    rw [he] at hp
    exact hnodup1.2 hp
  have hstartclosed1 : closedAt closed1 start.1 start.2 = true := by
    cases hsc : closedAt st.closed start.1 start.2 with
    | true => exact (hCpt start).mpr (Or.inl hsc)
    | false =>
      have hst := hInv.hinit hsc
      have hopeneq : st.openList = [start] := by rw [hst]; rfl
      have hPs : P = start := by
        have := hPmem
        rw [hopeneq] at this
        exact List.mem_singleton.mp this
      rw [← hPs]
      exact hC1self
  have FI0 : FoldInv grid target start P iP closed1 st.cd st.cd open1 :=
    { hstart1 := hInv.hstart1
      hstart2 := hInv.hstart2
      hP := hcdP
      hPclosed := hC1self
      htarget_cd := hInv.htarget_cd
      hnodup := hnodup1.1
      hopen_cd := fun p hp => hInv.hopen_cd p (hmem1 p hp)
      hopen_unclosed := by
        intro p hp
        have h1 : ¬(p.1 = P.1 ∧ p.2 = P.2) := by
          intro ⟨ha, hb⟩
          exact hmemne p hp (Prod.ext ha hb)
        rw [hC1other p.1 p.2 h1]
        exact hInv.hopen_unclosed p (hmem1 p hp)
      hrec := by
        intro p hp
        rcases hInv.hrec p hp with h1 | h1
        · by_cases hpP : p = P
          · exact Or.inr ((hCpt p).mpr (Or.inr hpP))
          · exact Or.inl (hmem1' p h1 hpP)
        · exact Or.inr ((hCpt p).mpr (Or.inl h1))
      hdom := hInv.hdom
      hclosed_cd := by
        intro p hp
        rcases (hCpt p).mp hp with h1 | h1
        · exact hInv.hclosed_cd p h1
        · rw [h1, hcdP]
          exact fun h => Option.noConfusion h
      hdim1 := hdim1b
      hdim2 := hdim2b
      hchain := by
        intro p i hp
        rcases hInv.hchain p i hp with ⟨h1, h2⟩
        refine ⟨h1, ?_⟩
        intro r hr
        rcases h2 r hr with ⟨hrc, hradj, qi, hrcd, hrg⟩
        exact ⟨(hCpt r).mpr (Or.inl hrc), hradj, qi, hrcd, hrg⟩
      hstartrec := hInv.hstartrec
      hstart_closed := hstartclosed1
      hg_closed := by
        intro p i hp hpc
        rcases (hCpt p).mp hpc with h1 | h1
        · have := hInv.hg_closed p i hp h1
          omega
        · subst h1
          rw [hcdP] at hp
          injection hp with hp
          subst hp
          have hgs := hInv.hg_all P iP hcdP
          omega
      hg_all := by
        intro p i hp
        have := hInv.hg_all p i hp
        omega
      hfg := hInv.hfg
      hpres := fun p _ => rfl
      hfmono := by
        intro p i i2 hp hp2
        rw [hp] at hp2
        injection hp2 with hp2
        subst hp2
        exact ⟨Nat.le_refl _, Nat.le_refl _⟩
      hext := fun p hp => hp }
  have hss : ∀ q ∈ successorsOf P.1 P.2 grid, orthAdj P q ∧ q.1 < grid.length ∧
      q.2 < grid.length ∧ isTraversable grid q.1 q.2 = true := by
    intro q hq
    have := (mem_successorsOf hPbounds.2 q).mp hq
    exact ⟨this.1, this.2.1, this.2.2.1, this.2.2.2⟩
  have h1 : astarStep grid target st =
      (match setClosed st.closed P.1 P.2 with
       | none => none
       | some closed =>
         match generate_successors P.1 P.2 grid with
         | none => none
         | some succ =>
           match processSuccessors grid target P.1 P.2 succ
               st.cd (swap_remove st.openList j) closed with
           | none => none
           | some (Sum.inl dirs) => some (Sum.inl dirs)
           | some (Sum.inr (cd, opn2)) => some (Sum.inr ⟨opn2, cd, closed⟩)) := by
    unfold astarStep
    rw [hj]
  cases hgs : generate_successors P.1 P.2 grid with
  | none =>
    refine Or.inl ⟨?_, P, hPmem, hgs⟩
    rw [h1, hsetC, hgs]
  | some succ =>
  have hsucceq : succ = successorsOf P.1 P.2 grid := generate_successors_some hgs
  subst hsucceq
  have h2 : astarStep grid target st =
      (match processSuccessors grid target P.1 P.2 (successorsOf P.1 P.2 grid)
          st.cd open1 closed1 with
       | none => none
       | some (Sum.inl dirs) => some (Sum.inl dirs)
       | some (Sum.inr (cd, opn2)) => some (Sum.inr ⟨opn2, cd, closed1⟩)) := by
    rw [h1, hsetC, hgs]
  rcases processSuccessors_spec grid target start P iP closed1 st.cd
      (successorsOf P.1 P.2 grid) st.cd open1 FI0 hss with
    ⟨dirs, heqPS, hlen, hadjPT, htr⟩ | ⟨cd2, opn2, heqPS, FI2, hmonoOpen, _, hsucc2⟩
  · rw [heqPS] at h2
    exact Or.inr (Or.inl ⟨dirs, P, iP, h2,
      { hPdef := ⟨j, hj, hP⟩
        hmem := hPmem
        hcd := hcdP
        hunclosed := hPunclosed
        hadj := hadjPT
        hlen := hlen
        htrace := htr
        hmin := hminP }⟩)
  · rw [heqPS] at h2
    refine Or.inr (Or.inr ⟨⟨opn2, cd2, closed1⟩, P, iP, h2, ?_⟩)
    have hInv2 : Inv grid target start ⟨opn2, cd2, closed1⟩ :=
      { hstart1 := hInv.hstart1
        hstart2 := hInv.hstart2
        htarget_cd := FI2.htarget_cd
        hopen_nodup := FI2.hnodup
        hopen_cd := FI2.hopen_cd
        hopen_unclosed := FI2.hopen_unclosed
        hrec := FI2.hrec
        hdom := FI2.hdom
        hclosed_cd := FI2.hclosed_cd
        hdim1 := FI2.hdim1
        hdim2 := FI2.hdim2
        hchain := FI2.hchain
        hstartrec := FI2.hstartrec
        hg_closed := FI2.hg_closed
        hg_all := FI2.hg_all
        hfg := FI2.hfg
        hinit := by
          intro hcon
          have := FI2.hstart_closed
          rw [show (SearchState.mk opn2 cd2 closed1).closed = closed1 from rfl] at hcon
          rw [this] at hcon
          exact Bool.noConfusion hcon }
    refine
      { hPdef := ⟨j, hj, hP⟩
        hinv2 := hInv2
        hmem := hPmem
        hcd := hcdP
        hunclosed := hPunclosed
        hcount := hcount1
        hclosed_pres := ?_
        hclosedAt2 := hCpt
        hmono := FI2.hfmono
        hopen2 := ?_
        hsucc := ?_
        hmin := hminP }
    · intro p hp
      have hc1 : closedAt closed1 p.1 p.2 = true := (hCpt p).mpr (Or.inl hp)
      exact ⟨FI2.hpres p hc1, hc1⟩
    · intro p hp hnep
      exact hmonoOpen p (hmem1' p hp hnep)
    · intro q hq hqu
      have hqne : q ≠ P := by
        have := (successorsOf_sub hq).2.2.2
        intro he
        apply this
        rw [he]
      have hqc1 : closedAt closed1 q.1 q.2 = false := by
        have h3 : ¬(q.1 = P.1 ∧ q.2 = P.2) := by
          intro ⟨ha, hb⟩
          exact hqne (Prod.ext ha hb)
        rw [hC1other q.1 q.2 h3]
        exact hqu
      exact hsucc2 q hq hqc1

end Snake

namespace Snake

theorem initState_cd_eq {start : Pt} {grid : Grid} {p : Pt} {i : CellInfo}
    (h : (initState start grid).cd p = some i) : p = start ∧ i = CellInfo.dflt := by
  simp only [initState] at h
  split at h
  · injection h with h
    exact ⟨by assumption, h.symm⟩
  · exact absurd h (fun h => Option.noConfusion h)

theorem initState_inv (grid : Grid) (target start : Pt)
    (hs1 : start.1 < grid.length) (hs2 : start.2 < grid.length) :
    Inv grid target start (initState start grid) := by
  refine
    { hstart1 := hs1
      hstart2 := hs2
      htarget_cd := ?_
      hopen_nodup := List.nodup_singleton _
      hopen_cd := ?_
      hopen_unclosed := ?_
      hrec := ?_
      hdom := ?_
      hclosed_cd := ?_
      hdim1 := by simp [initState]
      hdim2 := ?_
      hchain := ?_
      hstartrec := ?_
      hg_closed := ?_
      hg_all := ?_
      hfg := ?_
      hinit := fun _ => rfl }
  · by_cases ht : target = start
    · exact Or.inr ht
    · refine Or.inl ?_
      simp [initState, ht]
  · intro p hp
    have hps : p = start := List.mem_singleton.mp hp
    subst hps
    simp [initState]
  · intro p _
    exact closedAt_replicate _ _ _
  · intro p hp
    refine Or.inl ?_
    by_cases hps : p = start
    · rw [hps]; exact List.mem_singleton_self _
    · exfalso
      apply hp
      simp [initState, hps]
  · intro p hp
    by_cases hps : p = start
    · exact Or.inl hps
    · exfalso
      apply hp
      simp [initState, hps]
  · intro p hp
    rw [show (initState start grid).closed =
      List.replicate grid.length (List.replicate grid.length false) from rfl,
      closedAt_replicate] at hp
    exact Bool.noConfusion hp
  · intro row hrow
    have := List.eq_of_mem_replicate hrow
    rw [this]
    simp
  · intro p i hp
    obtain ⟨hps, hid⟩ := initState_cd_eq hp
    subst hps
    subst hid
    constructor
    · intro _; rfl
    · intro q hq
      exact absurd hq (fun h => Option.noConfusion h)
  · intro i hp
    exact (initState_cd_eq hp).2
  · intro p i hp hpc
    rw [show (initState start grid).closed =
      List.replicate grid.length (List.replicate grid.length false) from rfl,
      closedAt_replicate] at hpc
    exact Bool.noConfusion hpc
  · intro p i hp
    obtain ⟨_, hid⟩ := initState_cd_eq hp
    subst hid
    exact Nat.zero_le _
  · intro p i hp
    obtain ⟨hps, hid⟩ := initState_cd_eq hp
    subst hps
    subst hid
    exact ⟨rfl, fun hcon => absurd rfl hcon⟩

theorem inv_open_bounds {grid : Grid} {target start : Pt} {st : SearchState}
    (hInv : Inv grid target start st) {P : Pt} (hP : P ∈ st.openList) :
    P.1 < grid.length ∧ P.2 < grid.length := by
  cases hcd : st.cd P with
  | none => exact absurd hcd (hInv.hopen_cd P hP)
  | some i =>
    rcases hInv.hdom P (by rw [hcd]; simp) with h1 | ⟨h1, h2, _⟩
    · rw [h1]
      exact ⟨hInv.hstart1, hInv.hstart2⟩
    · exact ⟨h1, h2⟩

/-- When every row is long enough, the successor filter of a popped open
cell cannot index out of range, so a step never panics there. -/
theorem astarStep_spec_rows {grid : Grid} {target start : Pt} {st : SearchState}
    (hInv : Inv grid target start st) (hne : st.openList ≠ [])
    (hrows : ∀ row ∈ grid, grid.length ≤ row.length) :
    (∃ dirs P iP, astarStep grid target st = some (Sum.inl dirs) ∧
      StepInl grid target start st dirs P iP) ∨
    (∃ st2 P iP, astarStep grid target st = some (Sum.inr st2) ∧
      StepInr grid target start st st2 P iP) := by
  rcases astarStep_spec hInv hne with ⟨_, P, hPmem, hgs⟩ | h | h
  · exfalso
    have hb := inv_open_bounds hInv hPmem
    rw [generate_successors_eq hrows hb.1 hb.2] at hgs
    exact Option.noConfusion hgs
  · exact Or.inl h
  · exact Or.inr h

/-- The loop terminates within `grid.len()^2 + 1` iterations from any
invariant state whose grid rows are long enough (each iteration closes a
fresh in-bounds cell and the successor filter stays in range), and any
path it returns traces back from the target to `start`. -/
theorem solveLoop_spec {grid : Grid} {target start : Pt}
    (hrows : ∀ row ∈ grid, grid.length ≤ row.length) :
    ∀ (fuel : Nat) (st : SearchState), Inv grid target start st →
      grid.length * grid.length + 1 ≤ closedCount st.closed + fuel →
      ∃ r, solveLoop grid target fuel st = some r ∧
        ∀ dirs, r = some dirs → PathTraces grid start dirs.reverse target ∧ 1 ≤ dirs.length := by
  intro fuel
  induction fuel with
  | zero =>
    intro st hInv hfuel
    exfalso
    have := closedCount_le hInv.hdim1 hInv.hdim2
    omega
  | succ fu ih =>
    intro st hInv hfuel
    cases hop : st.openList with
    | nil =>
      refine ⟨none, ?_, ?_⟩
      · simp [solveLoop, hop]
      · intro dirs h
        exact Option.noConfusion h
    | cons a rest =>
      have hne : st.openList ≠ [] := by rw [hop]; simp
      rcases astarStep_spec_rows hInv hne hrows with
        ⟨dirs, P, iP, heq, SI⟩ | ⟨st2, P, iP, heq, SR⟩
      · refine ⟨some dirs, ?_, ?_⟩
        · simp [solveLoop, hop, heq]
        · intro ds h
          injection h with h
          subst h
          refine ⟨SI.htrace, ?_⟩
          rw [SI.hlen]
          omega
      · obtain ⟨r, hr, hprop⟩ := ih st2 SR.hinv2 (by
          have := SR.hcount
          omega)
        refine ⟨r, ?_, hprop⟩
        simp [solveLoop, hop, heq, hr]

/-- Soundness of any path the loop actually returns: no assumption on the
row lengths is needed, because a returned path certifies that no panic
occurred along the way. -/
theorem solveLoop_sound {grid : Grid} {target start : Pt} :
    ∀ (fuel : Nat) (st : SearchState) (dirs : List Direction),
      Inv grid target start st →
      solveLoop grid target fuel st = some (some dirs) →
      PathTraces grid start dirs.reverse target ∧ 1 ≤ dirs.length := by
  intro fuel
  induction fuel with
  | zero =>
    intro st dirs _ h
    exact Option.noConfusion h
  | succ fu ih =>
    intro st dirs hInv h
    cases hop : st.openList with
    | nil => simp [solveLoop, hop] at h
    | cons a rest =>
      have hne : st.openList ≠ [] := by rw [hop]; simp
      cases hstep : astarStep grid target st with
      | none => simp [solveLoop, hop, hstep] at h
      | some x =>
        cases x with
        | inl d =>
          have hd : d = dirs := by
            simp [solveLoop, hop, hstep] at h
            exact h
          subst hd
          rcases astarStep_spec hInv hne with ⟨heqn, _⟩ |
            ⟨d2, P, iP, heq, SI⟩ | ⟨st2, P, iP, heq, _⟩
          · rw [heqn] at hstep
            exact Option.noConfusion hstep
          · rw [heq] at hstep
            injection hstep with h1
            injection h1 with h2
            subst h2
            exact ⟨SI.htrace, by rw [SI.hlen]; omega⟩
          · rw [heq] at hstep
            injection hstep with h1
            exact Sum.noConfusion h1
        | inr st2 =>
          have h2 : solveLoop grid target fu st2 = some (some dirs) := by
            simpa [solveLoop, hop, hstep] using h
          rcases astarStep_spec hInv hne with ⟨heqn, _⟩ |
            ⟨d2, P, iP, heq, _⟩ | ⟨st2b, P, iP, heq, SR⟩
          · rw [heqn] at hstep
            exact Option.noConfusion hstep
          · rw [heq] at hstep
            injection hstep with h1
            exact Sum.noConfusion h1
          · rw [heq] at hstep
            injection hstep with h1
            injection h1 with h3
            rw [← h3] at h2
            exact ih st2b dirs SR.hinv2 h2

end Snake

namespace Snake

/-- If a closed set of points contains the start, is closed under
traversable in-bounds adjacency (checked over the finite candidate
lists), and misses the target, the target is not reachable. -/
theorem not_reachable_of_closed_list (grid : Grid) (S : List Pt) (s t : Pt)
    (hs : s ∈ S) (ht : t ∉ S)
    (hcl : ∀ p ∈ S, ∀ q ∈ adjCands p, isTraversable grid q.1 q.2 = true →
      inSq grid q → q ∈ S) :
    ¬ Reachable grid s t := by
  rintro ⟨ds, htr⟩
  exact ht (htr.mem_closed_set S
    (fun p hp q hadj htrav hin => hcl p hp q (orthAdj_mem_adjCands hadj) htrav hin) hs)

/-- Claim C1: when the A* loop returns through the non-fallback branch,
the returned sequence, consumed by popping from the end (i.e. reversed),
traces orthogonally adjacent steps from `start` to the food cell through
traversable in-bounds tiles; the stored order is reverse traversal
order. -/
theorem claim_C1 (grid : Grid) (start food : Pt) (dirs : List Direction) (rand : Nat)
    (hfood : find_target grid = some food)
    (hs1 : start.1 < grid.length) (hs2 : start.2 < grid.length)
    (hneq : start ≠ food)
    (hloop : solveLoop grid food (grid.length * grid.length + 1) (initState start grid) =
      some (some dirs)) :
    solve grid start rand = some dirs ∧ PathTraces grid start dirs.reverse food := by
  have hInv := initState_inv grid food start hs1 hs2
  have h := solveLoop_sound (grid.length * grid.length + 1) (initState start grid)
    dirs hInv hloop
  exact ⟨by simp [solve, hfood, hloop], h.1⟩

theorem claim_C1_witness :
    solve [[Cell.Free, Cell.Free, Cell.Free], [Cell.Free, Cell.Free, Cell.Free],
        [Cell.Food, Cell.Free, Cell.Free]] (0, 0) 0 =
      some [Direction.East, Direction.East] ∧
    PathTraces [[Cell.Free, Cell.Free, Cell.Free], [Cell.Free, Cell.Free, Cell.Free],
        [Cell.Food, Cell.Free, Cell.Free]] (0, 0)
      ([Direction.East, Direction.East]).reverse (2, 0) :=
  claim_C1 [[Cell.Free, Cell.Free, Cell.Free], [Cell.Free, Cell.Free, Cell.Free],
      [Cell.Food, Cell.Free, Cell.Free]] (0, 0) (2, 0) [Direction.East, Direction.East] 0
    (by decide) (by decide) (by decide) (by decide) (by decide)

theorem fallback_isSome {grid : Grid} {start : Pt} (rand : Nat)
    (hrows : ∀ row ∈ grid, grid.length ≤ row.length)
    (hs1 : start.1 < grid.length) (hs2 : start.2 < grid.length) :
    ∃ ds, fallback grid start rand = some ds := by
  unfold fallback
  rw [generate_successors_eq hrows hs1 hs2, Option.map_some']
  exact ⟨_, rfl⟩

/-- Claim C9 counterexample: on a grid whose rows are shorter than the
row count, the successor filter indexes out of range (`grid[0][1]` here)
and the program panics instead of returning a value, although the grid
has food and the start is within the square bounds. -/
theorem claim_C9_counterexample :
    solve [[Cell.Free], [Cell.Obstacle], [Cell.Food]] (0, 0) 0 = none ∧
    find_target [[Cell.Free], [Cell.Obstacle], [Cell.Food]] = some (2, 0) ∧
    ((0 : Nat) < 3 ∧ (0 : Nat) < 3) := by
  exact ⟨by decide, by decide, by decide, by decide⟩

/-- Claim C9 (amended): for a grid with food, rows at least as long as
the row count, and an in-bounds start, `solve` terminates within the loop
fuel `grid.len()^2 + 1` (each iteration closes one more cell, and at most
`grid.len()^2` cells exist), returning a value. -/
theorem claim_C9_amended (grid : Grid) (start food : Pt) (rand : Nat)
    (hfood : find_target grid = some food)
    (hrows : ∀ row ∈ grid, grid.length ≤ row.length)
    (hs1 : start.1 < grid.length) (hs2 : start.2 < grid.length) :
    ∃ dirs, solve grid start rand = some dirs := by
  have hInv := initState_inv grid food start hs1 hs2
  obtain ⟨r, hr, _⟩ := solveLoop_spec hrows (grid.length * grid.length + 1)
    (initState start grid) hInv (by
      rw [show (initState start grid).closed =
        List.replicate grid.length (List.replicate grid.length false) from rfl,
        closedCount_replicate]
      omega)
  cases r with
  | none =>
    obtain ⟨ds, hds⟩ := fallback_isSome rand hrows hs1 hs2
    exact ⟨ds, by simp [solve, hfood, hr, hds]⟩
  | some dirs => exact ⟨dirs, by simp [solve, hfood, hr]⟩

theorem claim_C9_amended_witness :
    (solve [[Cell.Free, Cell.Free, Cell.Free], [Cell.Free, Cell.Free, Cell.Free],
      [Cell.Food, Cell.Free, Cell.Free]] (0, 0) 0).isSome = true := by
  obtain ⟨dirs, hd⟩ := claim_C9_amended [[Cell.Free, Cell.Free, Cell.Free],
    [Cell.Free, Cell.Free, Cell.Free], [Cell.Food, Cell.Free, Cell.Free]] (0, 0) (2, 0) 0
    (by decide) (by decide) (by decide) (by decide)
  rw [hd]
  rfl

/-- Claim C3: if every in-bounds orthogonal neighbour of the start is
non-traversable, `solve` returns the empty sequence. -/
theorem claim_C3_counterexample :
    solve [[Cell.Free], [Cell.Obstacle], [Cell.Food]] (0, 0) 0 = none ∧
    (∀ q : Pt, orthAdj (0, 0) q → q.1 < 3 → q.2 < 3 →
      isTraversable [[Cell.Free], [Cell.Obstacle], [Cell.Food]] q.1 q.2 = false) ∧
    find_target [[Cell.Free], [Cell.Obstacle], [Cell.Food]] = some (2, 0) ∧
    ((0 : Nat) < 3 ∧ (0 : Nat) < 3) := by
  refine ⟨by decide, ?_, by decide, by decide, by decide⟩
  intro q hadj h1 h2
  have hq := orthAdj_mem_adjCands hadj
  simp only [adjCands, List.mem_append, List.mem_cons, List.not_mem_nil] at hq
  rcases hq with ((hq | hq) | hq) | hq
  · subst hq; decide
  · rcases hq with hq | hq
    · subst hq; decide
    · exact absurd hq (by simp)
  · simp at hq
  · simp at hq

/-- Claim C3 (amended): on a grid whose rows are long enough, if every
in-bounds orthogonal neighbour of the start is non-traversable, `solve`
returns the empty sequence.  (Without the row-length condition the
successor filter can panic first, see the counterexample.) -/
theorem claim_C3_amended (grid : Grid) (start food : Pt) (rand : Nat)
    (hfood : find_target grid = some food)
    (hrows : ∀ row ∈ grid, grid.length ≤ row.length)
    (hs1 : start.1 < grid.length) (hs2 : start.2 < grid.length)
    (hsur : ∀ q : Pt, orthAdj start q → q.1 < grid.length → q.2 < grid.length →
      isTraversable grid q.1 q.2 = false) :
    solve grid start rand = some [] := by
  have hsucc : successorsOf start.1 start.2 grid = [] := by
    rw [List.eq_nil_iff_forall_not_mem]
    intro q hq
    obtain ⟨hadj, h1, h2, htrav⟩ := (mem_successorsOf hs2 q).mp hq
    rw [hsur q hadj h1 h2] at htrav
    exact Bool.noConfusion htrav
  have hInv := initState_inv grid food start hs1 hs2
  obtain ⟨r, hr, hprop⟩ := solveLoop_spec hrows (grid.length * grid.length + 1)
    (initState start grid) hInv (by
      rw [show (initState start grid).closed =
        List.replicate grid.length (List.replicate grid.length false) from rfl,
        closedCount_replicate]
      omega)
  cases r with
  | some dirs =>
    exfalso
    obtain ⟨htr, hlen⟩ := hprop dirs rfl
    cases hdr : dirs.reverse with
    | nil =>
      have : dirs = [] := by
        have := congrArg List.reverse hdr
        simpa using this
      rw [this] at hlen
      simp at hlen
    | cons e es =>
      rw [hdr] at htr
      cases htr with
      | cons p q r d ds hadj hdir htrav hin hrest =>
        rw [hsur q hadj hin.1 hin.2] at htrav
        exact Bool.noConfusion htrav
  | none =>
    have hfb : fallback grid start rand = some [] := by
      simp [fallback, generate_successors_eq hrows hs1 hs2, hsucc]
    simp [solve, hfood, hr, hfb]

theorem claim_C3_amended_witness :
    solve [[Cell.Free, Cell.Obstacle], [Cell.Obstacle, Cell.Food]] (0, 0) 0 = some [] := by
  refine claim_C3_amended [[Cell.Free, Cell.Obstacle], [Cell.Obstacle, Cell.Food]]
    (0, 0) (1, 1) 0 (by decide) (by decide) (by decide) (by decide) ?_
  intro q hadj h1 h2
  have hq := orthAdj_mem_adjCands hadj
  simp only [adjCands, List.mem_append, List.mem_cons, List.not_mem_nil] at hq
  rcases hq with ((hq | hq) | hq) | hq
  · subst hq; decide
  · rcases hq with hq | hq
    · subst hq; decide
    · exact absurd hq (by simp)
  · simp at hq
  · simp at hq

/-- Claim C7 counterexample: the start has exactly one traversable
in-bounds neighbour and the food is unreachable, but instead of
returning the single fallback move the program panics: when the unique
neighbour `(0,1)` is popped, the successor filter indexes `grid[0][2]`,
which is out of range of the 2-element row. -/
theorem claim_C7_counterexample :
    solve [[Cell.Free, Cell.Free], [Cell.Obstacle, Cell.Obstacle], [Cell.Food, Cell.Free]]
      (0, 0) 0 = none ∧
    (∀ q : Pt, (orthAdj (0, 0) q ∧ q.1 < 3 ∧ q.2 < 3 ∧
      isTraversable [[Cell.Free, Cell.Free], [Cell.Obstacle, Cell.Obstacle],
        [Cell.Food, Cell.Free]] q.1 q.2 = true) ↔ q = (0, 1)) ∧
    ¬ Reachable [[Cell.Free, Cell.Free], [Cell.Obstacle, Cell.Obstacle],
      [Cell.Food, Cell.Free]] (0, 0) (2, 0) ∧
    find_target [[Cell.Free, Cell.Free], [Cell.Obstacle, Cell.Obstacle],
      [Cell.Food, Cell.Free]] = some (2, 0) := by
  refine ⟨by decide, ?_, ?_, by decide⟩
  · intro q
    constructor
    · rintro ⟨hadj, h1, h2, htrav⟩
      have hq := orthAdj_mem_adjCands hadj
      simp only [adjCands, List.mem_append, List.mem_cons, List.not_mem_nil] at hq
      rcases hq with ((hq | hq) | hq) | hq
      · subst hq; exact absurd htrav (by decide)
      · rcases hq with hq | hq
        · subst hq; rfl
        · exact absurd hq (by simp)
      · simp at hq
      · simp at hq
    · intro hq
      subst hq
      exact ⟨by decide, by decide, by decide, by decide⟩
  · exact not_reachable_of_closed_list _ [(0, 0), (0, 1)] (0, 0) (2, 0)
      (by decide) (by decide) (by decide)

/-- Claim C7 (amended): on a grid whose rows are long enough, with
exactly one traversable in-bounds neighbour and an unreachable food cell,
the fallback returns the single direction to that neighbour (for every
random draw). -/
theorem claim_C7_amended (grid : Grid) (start food q0 : Pt) (rand : Nat)
    (hfood : find_target grid = some food)
    (hrows : ∀ row ∈ grid, grid.length ≤ row.length)
    (hs1 : start.1 < grid.length) (hs2 : start.2 < grid.length)
    (huniq : ∀ q : Pt, (orthAdj start q ∧ q.1 < grid.length ∧ q.2 < grid.length ∧
      isTraversable grid q.1 q.2 = true) ↔ q = q0)
    (hunreach : ¬ Reachable grid start food) :
    solve grid start rand = some [get_direction start.1 start.2 q0.1 q0.2] := by
  have hmemiff : ∀ q : Pt, q ∈ successorsOf start.1 start.2 grid ↔ q = q0 := by
    intro q
    rw [mem_successorsOf hs2 q]
    exact huniq q
  have hq0mem : q0 ∈ successorsOf start.1 start.2 grid := (hmemiff q0).mpr rfl
  have hInv := initState_inv grid food start hs1 hs2
  obtain ⟨r, hr, hprop⟩ := solveLoop_spec hrows (grid.length * grid.length + 1)
    (initState start grid) hInv (by
      rw [show (initState start grid).closed =
        List.replicate grid.length (List.replicate grid.length false) from rfl,
        closedCount_replicate]
      omega)
  cases r with
  | some dirs =>
    exfalso
    obtain ⟨htr, _⟩ := hprop dirs rfl
    exact hunreach ⟨dirs.reverse, htr⟩
  | none =>
    have hlenpos : 0 < (successorsOf start.1 start.2 grid).length :=
      List.length_pos_of_mem hq0mem
    have hfb : fallback grid start rand =
        some [get_direction start.1 start.2 q0.1 q0.2] := by
      unfold fallback
      rw [generate_successors_eq hrows hs1 hs2, Option.map_some']
      rw [if_neg (by omega)]
      have hmodlt : rand % (successorsOf start.1 start.2 grid).length <
          (successorsOf start.1 start.2 grid).length :=
        Nat.mod_lt _ hlenpos
      have hc : (successorsOf start.1 start.2 grid).getD
          (rand % (successorsOf start.1 start.2 grid).length) (0, 0) = q0 :=
        (hmemiff _).mp (getD_mem_of_lt hmodlt)
      rw [hc]
    simp [solve, hfood, hr, hfb]

theorem claim_C7_amended_witness :
    solve [[Cell.Free, Cell.Free, Cell.Free], [Cell.Obstacle, Cell.Obstacle, Cell.Obstacle],
        [Cell.Free, Cell.Free, Cell.Food]] (0, 0) 7 =
      some [get_direction 0 0 0 1] := by
  refine claim_C7_amended [[Cell.Free, Cell.Free, Cell.Free],
    [Cell.Obstacle, Cell.Obstacle, Cell.Obstacle],
    [Cell.Free, Cell.Free, Cell.Food]] (0, 0) (2, 2) (0, 1) 7
    (by decide) (by decide) (by decide) (by decide) ?_ ?_
  · intro q
    constructor
    · rintro ⟨hadj, h1, h2, htrav⟩
      have hq := orthAdj_mem_adjCands hadj
      simp only [adjCands, List.mem_append, List.mem_cons, List.not_mem_nil] at hq
      rcases hq with ((hq | hq) | hq) | hq
      · subst hq; exact absurd htrav (by decide)
      · rcases hq with hq | hq
        · subst hq; rfl
        · exact absurd hq (by simp)
      · simp at hq
      · simp at hq
    · intro hq
      subst hq
      exact ⟨by decide, by decide, by decide, by decide⟩
  · exact not_reachable_of_closed_list _ [(0, 0), (0, 1), (0, 2)] (0, 0) (2, 2)
      (by decide) (by decide) (by decide)

end Snake

namespace Snake

/-- Claim C5 counterexample: in the all-free 3x3 grid with food at (2,2),
starting from (0,0), the third iteration rewrites the record of (1,1)
(parent changes from (1,0) to (0,1)) although the newly computed f (4) is
not strictly smaller than the recorded f (4). -/
theorem claim_C5_counterexample :
    (((runSteps [[Cell.Free, Cell.Free, Cell.Free], [Cell.Free, Cell.Free, Cell.Free],
        [Cell.Free, Cell.Free, Cell.Food]] (2, 2) 2
        (initState (0, 0) [[Cell.Free, Cell.Free, Cell.Free],
          [Cell.Free, Cell.Free, Cell.Free],
          [Cell.Free, Cell.Free, Cell.Food]])).map (fun st => st.cd (1, 1)) =
      some (some ⟨some (1, 0), 2, 2, 4⟩))) ∧
    (((runSteps [[Cell.Free, Cell.Free, Cell.Free], [Cell.Free, Cell.Free, Cell.Free],
        [Cell.Free, Cell.Free, Cell.Food]] (2, 2) 3
        (initState (0, 0) [[Cell.Free, Cell.Free, Cell.Free],
          [Cell.Free, Cell.Free, Cell.Free],
          [Cell.Free, Cell.Free, Cell.Food]])).map (fun st => st.cd (1, 1)) =
      some (some ⟨some (0, 1), 2, 2, 4⟩))) ∧
    ¬ ((4 : Nat) < 4) := by
  exact ⟨by decide, by decide, by decide⟩

/-- Claim C5 (amended): across one continuing loop iteration from an
invariant state, the record of a closed point never changes and closed
points stay closed, a record is only ever replaced by one whose f is less
than or equal to the old one (equality does occur, see the
counterexample), and the popped cell is never one already closed. -/
theorem claim_C5_amended (grid : Grid) (target start : Pt) (st st2 : SearchState)
    (hInv : Inv grid target start st)
    (hstep : astarStep grid target st = some (Sum.inr st2)) :
    (∀ p : Pt, closedAt st.closed p.1 p.2 = true →
      st2.cd p = st.cd p ∧ closedAt st2.closed p.1 p.2 = true) ∧
    (∀ p i i2, st.cd p = some i → st2.cd p = some i2 → i2.f ≤ i.f) ∧
    (∀ i, lowest_f st.openList st.cd = some i →
      closedAt st.closed (st.openList.getD i (0, 0)).1
        (st.openList.getD i (0, 0)).2 = false) := by
  have hne : st.openList ≠ [] := by
    intro hnil
    rw [show astarStep grid target st = none from by simp [astarStep, lowest_f, hnil]] at hstep
    exact Option.noConfusion hstep
  rcases astarStep_spec hInv hne with ⟨heqn, _⟩ |
    ⟨dirs, P, iP, heq, _⟩ | ⟨st2b, P, iP, heq, SR⟩
  · rw [heqn] at hstep
    exact Option.noConfusion hstep
  · rw [heq] at hstep
    injection hstep with h1
    exact Sum.noConfusion h1
  · rw [heq] at hstep
    injection hstep with h1
    injection h1 with h2
    subst h2
    refine ⟨SR.hclosed_pres, fun p i i2 hi hi2 => (SR.hmono p i i2 hi hi2).1, ?_⟩
    intro i hi
    obtain ⟨j, hj, hPj⟩ := SR.hPdef
    have hij : i = j := by
      rw [hj] at hi
      injection hi with hi
      exact hi.symm
    subst hij
    rw [← hPj]
    exact SR.hunclosed

theorem claim_C5_amended_witness :
    closedAt (initState ((0, 0) : Pt) [[Cell.Free, Cell.Free, Cell.Free],
      [Cell.Free, Cell.Free, Cell.Free], [Cell.Free, Cell.Free, Cell.Food]]).closed 0 0 =
      false := by
  have h := claim_C5_amended [[Cell.Free, Cell.Free, Cell.Free],
    [Cell.Free, Cell.Free, Cell.Free], [Cell.Free, Cell.Free, Cell.Food]] (2, 2) (0, 0)
    (initState (0, 0) [[Cell.Free, Cell.Free, Cell.Free],
      [Cell.Free, Cell.Free, Cell.Free], [Cell.Free, Cell.Free, Cell.Food]]) _
    (initState_inv _ _ _ (by decide) (by decide)) rfl
  exact h.2.2 0 rfl

/-- Claim C6 counterexample: the start record is inserted with the
`Default` values g = 0, h = 0, f = 0, so its f is 0 and not
`h(start, target)` (= 4 here). -/
theorem claim_C6_counterexample :
    (initState (0, 0) [[Cell.Free, Cell.Free, Cell.Free], [Cell.Free, Cell.Free, Cell.Free],
        [Cell.Free, Cell.Free, Cell.Food]]).cd (0, 0) = some ⟨none, 0, 0, 0⟩ ∧
    find_target [[Cell.Free, Cell.Free, Cell.Free], [Cell.Free, Cell.Free, Cell.Free],
        [Cell.Free, Cell.Free, Cell.Food]] = some (2, 2) ∧
    manhatten_distance 0 0 2 2 = 4 ∧ (0 : Nat) ≠ 4 := by
  exact ⟨by decide, by decide, by decide, by decide⟩

/-- Claim C6 (amended): `solve` initialises the search by placing `start`
alone on the open list with the `Default` record: parent none,
g = h = f = 0 (not f = h(start, target)); no other point has a record. -/
theorem claim_C6_amended (grid : Grid) (start : Pt) :
    (initState start grid).cd start = some ⟨none, 0, 0, 0⟩ ∧
    (∀ p : Pt, p ≠ start → (initState start grid).cd p = none) ∧
    (initState start grid).openList = [start] := by
  refine ⟨by simp [initState, CellInfo.dflt], ?_, rfl⟩
  intro p hp
  simp [initState, hp]

theorem claim_C6_amended_witness :
    (initState ((0, 0) : Pt) [[Cell.Food]]).cd (0, 0) = some ⟨none, 0, 0, 0⟩ ∧
    (initState ((0, 0) : Pt) [[Cell.Food]]).cd (1, 1) = none := by
  have h := claim_C6_amended [[Cell.Food]] (0, 0)
  exact ⟨h.1, h.2.1 (1, 1) (by decide)⟩

/-- Claim C8 counterexample: at `(0,0)` on a grid with a short first
row, the expected successor list would be `[(1,0)]`, but the filter also
looks up the candidate `(0,1)` (its bound `y+1 < grid.len()` passes) at
`grid[0][1]`, which is out of range, so the function panics instead of
returning any list. -/
theorem claim_C8_counterexample :
    generate_successors 0 0 [[Cell.Free], [Cell.Food]] = none ∧
    orthAdj (0, 0) (1, 0) ∧
    tileAt [[Cell.Free], [Cell.Food]] 1 0 = some Cell.Food ∧
    ((1 : Nat) < 2 ∧ (0 : Nat) < 2) := by
  exact ⟨by decide, by decide, by decide, by decide, by decide⟩

/-- Claim C8 (amended): for an in-bounds point on a grid whose rows are
long enough, `generate_successors` returns (without panicking) exactly
the orthogonally adjacent, in-bounds points whose tile is Free or Food,
and lists them in (a sublist of) the fixed canonical order north, south,
east, west. -/
theorem claim_C8_amended (grid : Grid) (p : Pt)
    (hrows : ∀ row ∈ grid, grid.length ≤ row.length)
    (hp1 : p.1 < grid.length) (hp2 : p.2 < grid.length) :
    generate_successors p.1 p.2 grid = some (successorsOf p.1 p.2 grid) ∧
    (∀ q : Pt, q ∈ successorsOf p.1 p.2 grid ↔
      (orthAdj p q ∧ q.1 < grid.length ∧ q.2 < grid.length ∧
        (tileAt grid q.1 q.2 = some Cell.Free ∨ tileAt grid q.1 q.2 = some Cell.Food))) ∧
    List.Sublist (successorsOf p.1 p.2 grid)
      [(p.1 - 1, p.2), (p.1 + 1, p.2), (p.1, p.2 + 1), (p.1, p.2 - 1)] := by
  refine ⟨generate_successors_eq hrows hp1 hp2, ?_, ?_⟩
  · intro q
    exact (mem_successorsOf hp2 q).trans (by rw [isTraversable_iff])
  · unfold successorsOf successorCands
    refine List.Sublist.trans (List.filter_sublist _) ?_
    have h4 : ∀ (c : Prop) (hc : Decidable c) (v : Pt),
        List.Sublist (if c then [v] else []) [v] := by
      intro c hc v
      split
      · exact List.Sublist.refl _
      · exact List.nil_sublist _
    exact (((h4 _ _ _).append (h4 _ _ _)).append (h4 _ _ _)).append (h4 _ _ _)

theorem claim_C8_amended_witness :
    generate_successors 0 0 [[Cell.Free, Cell.Obstacle], [Cell.Food, Cell.Free]] =
      some (successorsOf 0 0 [[Cell.Free, Cell.Obstacle], [Cell.Food, Cell.Free]]) ∧
    (((1, 0) : Pt) ∈
        successorsOf 0 0 [[Cell.Free, Cell.Obstacle], [Cell.Food, Cell.Free]] ↔
      (orthAdj (0, 0) (1, 0) ∧ 1 < 2 ∧ 0 < 2 ∧
        (tileAt [[Cell.Free, Cell.Obstacle], [Cell.Food, Cell.Free]] 1 0 = some Cell.Free ∨
         tileAt [[Cell.Free, Cell.Obstacle], [Cell.Food, Cell.Free]] 1 0 =
           some Cell.Food))) ∧
    List.Sublist (successorsOf 0 0 [[Cell.Free, Cell.Obstacle], [Cell.Food, Cell.Free]])
      [(0, 0), (1, 0), (0, 1), (0, 0)] := by
  have h := claim_C8_amended [[Cell.Free, Cell.Obstacle], [Cell.Food, Cell.Free]] (0, 0)
    (by decide) (by decide) (by decide)
  exact ⟨h.1, h.2.1 (1, 0), h.2.2⟩

/-- Claim C10: `solve` finds its own target by scanning the grid: without
any Food tile it panics (modelled as `none`), and `find_target` returns
the first Food cell in row-major order (smallest x, then smallest y). -/
theorem claim_C10 (grid : Grid) (start : Pt) (rand : Nat) :
    ((∀ x y : Nat, tileAt grid x y ≠ some Cell.Food) → solve grid start rand = none) ∧
    (∀ p : Pt, find_target grid = some p →
      tileAt grid p.1 p.2 = some Cell.Food ∧
      ∀ q : Pt, tileAt grid q.1 q.2 = some Cell.Food →
        p.1 < q.1 ∨ (p.1 = q.1 ∧ p.2 ≤ q.2)) := by
  constructor
  · intro hno
    have h := find_target_none hno
    simp [solve, h]
  · intro p hp
    exact find_target_spec hp

theorem claim_C10_witness :
    solve [[Cell.Obstacle]] (0, 0) 0 = none ∧
    tileAt [[Cell.Free, Cell.Food]] 0 1 = some Cell.Food := by
  constructor
  · refine (claim_C10 [[Cell.Obstacle]] (0, 0) 0).1 ?_
    intro x y
    cases x with
    | zero =>
      cases y with
      | zero => decide
      | succ n => simp [tileAt, List.get?_cons_succ, List.get?_nil]
    | succ m => simp [tileAt, List.get?_cons_succ, List.get?_nil]
  · exact ((claim_C10 [[Cell.Free, Cell.Food]] (0, 0) 0).2 (0, 1) (by decide)).1

/-- Claim C2 counterexample: on a grid whose food is walled off, the
search exhausts and the fallback returns a single move, so the returned
length (1) is smaller than the Manhattan distance to the food (4). -/
theorem claim_C2_counterexample :
    solve [[Cell.Free, Cell.Free, Cell.Free], [Cell.Obstacle, Cell.Obstacle, Cell.Obstacle],
        [Cell.Free, Cell.Free, Cell.Food]] (0, 0) 0 = some [Direction.South] ∧
    find_target [[Cell.Free, Cell.Free, Cell.Free],
        [Cell.Obstacle, Cell.Obstacle, Cell.Obstacle],
        [Cell.Free, Cell.Free, Cell.Food]] = some (2, 2) ∧
    manhatten_distance 0 0 2 2 = 4 ∧
    ¬ (4 ≤ ([Direction.South] : List Direction).length) := by
  exact ⟨by decide, by decide, by decide, by decide⟩

end Snake

namespace Snake

/-- The frontier invariant along a monotone path `m`: some `m j` (j < M)
is open with a cost at most `j`, and no later path point before the food
is closed yet. -/
def FrontierInv (grid : Grid) (M : Nat) (m : Nat → Pt) (st : SearchState) : Prop :=
  ∃ j, j < M ∧ m j ∈ st.openList ∧ (∃ i, st.cd (m j) = some i ∧ i.g ≤ j) ∧
    ∀ k, j < k → k < M → closedAt st.closed (m k).1 (m k).2 = false

theorem monoPath_inj {grid : Grid} {start food : Pt} {M : Nat} {m : Nat → Pt}
    (hmp : MonoPath grid start food M m) {i j : Nat} (hi : i ≤ M) (hj : j ≤ M)
    (he : m i = m j) : i = j := by
  obtain ⟨_, _, _, hdist, _⟩ := hmp
  have h1 := hdist i hi
  have h2 := hdist j hj
  rw [he] at h1
  omega

theorem inv_f_lt_max {grid : Grid} {target start : Pt} {st : SearchState}
    (hInv : Inv grid target start st)
    (ht1 : target.1 < grid.length) (ht2 : target.2 < grid.length)
    (hMAX : grid.length * grid.length + 2 * grid.length ≤ USIZE_MAX) :
    ∀ p ∈ st.openList, ∃ ip, st.cd p = some ip ∧ ip.f < USIZE_MAX := by
  intro p hp
  cases hcd : st.cd p with
  | none => exact absurd hcd (hInv.hopen_cd p hp)
  | some ip =>
  refine ⟨ip, rfl, ?_⟩
  have hfg := hInv.hfg p ip hcd
  have hg := hInv.hg_all p ip hcd
  have hcnt := closedCount_le hInv.hdim1 hInv.hdim2
  by_cases hps : p = start
  · have hd := hInv.hstartrec ip (hps ▸ hcd)
    rw [hd]
    show (0 : Nat) < USIZE_MAX
    decide
  · have hh := hfg.2 hps
    have hb : p.1 < grid.length ∧ p.2 < grid.length := by
      rcases hInv.hdom p (by rw [hcd]; simp) with h1 | ⟨h1, h2, _⟩
      · exact absurd h1 hps
      · exact ⟨h1, h2⟩
    have hman : manhatten_distance p.1 p.2 target.1 target.2 + 2 ≤ 2 * grid.length := by
      rw [manhatten_eq]
      omega
    omega

theorem frontier_step {grid : Grid} {start food : Pt} {M : Nat} {m : Nat → Pt}
    {st : SearchState}
    (hmp : MonoPath grid start food M m) (hM : 1 ≤ M)
    (hrows : ∀ row ∈ grid, grid.length ≤ row.length)
    (hMAX : grid.length * grid.length + 2 * grid.length ≤ USIZE_MAX)
    (hInv : Inv grid food start st) (hFr : FrontierInv grid M m st) :
    (∃ dirs, astarStep grid food st = some (Sum.inl dirs) ∧ dirs.length = M ∧
       PathTraces grid start dirs.reverse food) ∨
    (∃ st2, astarStep grid food st = some (Sum.inr st2) ∧ Inv grid food start st2 ∧
       FrontierInv grid M m st2 ∧
       closedCount st2.closed = closedCount st.closed + 1) := by
  have hmp2 := hmp
  obtain ⟨hm0, hmM, hadjm, hdistm, htravm⟩ := hmp2
  obtain ⟨j, hjM, hjopen, ⟨ij, hjcd, hjg⟩, hrange⟩ := hFr
  have hne : st.openList ≠ [] := by
    intro h
    rw [h] at hjopen
    exact List.not_mem_nil _ hjopen
  have htne : food ≠ start := by
    intro he
    have heq : m M = m 0 := by rw [hmM, hm0, he]
    have := monoPath_inj hmp (Nat.le_refl M) (Nat.zero_le M) heq
    omega
  have htbounds : food.1 < grid.length ∧ food.2 < grid.length := by
    have h1 := (htravm M hM (Nat.le_refl M)).2
    rw [hmM] at h1
    exact ⟨h1.1, h1.2⟩
  have hfmax := inv_f_lt_max hInv htbounds.1 htbounds.2 hMAX
  have hjfle : ij.f ≤ M := by
    by_cases hjs : m j = start
    · have hd := hInv.hstartrec ij (hjs ▸ hjcd)
      rw [hd]
      show (0 : Nat) ≤ M
      omega
    · have hfg := hInv.hfg (m j) ij hjcd
      have hh := hfg.2 hjs
      have hd := hdistm j (Nat.le_of_lt hjM)
      omega
  rcases astarStep_spec_rows hInv hne hrows with
    ⟨dirs, P, iP, heq, SI⟩ | ⟨st2, P, iP, heq, SR⟩
  · left
    refine ⟨dirs, heq, ?_, SI.htrace⟩
    have hge : M ≤ dirs.length := by
      have h1 := SI.htrace.manhatten_le
      have h2 := hdistm 0 (Nat.zero_le M)
      rw [hm0] at h2
      rw [List.length_reverse] at h1
      omega
    have hPfle : iP.f ≤ M := by
      have h1 := SI.hmin hfmax (m j) ij hjopen hjcd
      omega
    have hle : dirs.length ≤ M := by
      by_cases hPs : P = start
      · have hd := hInv.hstartrec iP (hPs ▸ SI.hcd)
        rw [SI.hlen, hd]
        show 0 + 1 ≤ M
        omega
      · have hfg := hInv.hfg P iP SI.hcd
        have hh := hfg.2 hPs
        have hman := orthAdj_manhatten SI.hadj
        rw [SI.hlen]
        omega
    omega
  · right
    refine ⟨st2, heq, SR.hinv2, ?_, SR.hcount⟩
    have hPfle : iP.f ≤ M := by
      have h1 := SR.hmin hfmax (m j) ij hjopen hjcd
      omega
    by_cases hPk : ∃ k, j ≤ k ∧ k < M ∧ P = m k
    · obtain ⟨k, hk1, hk2, hPkeq⟩ := hPk
      have hgk : iP.g ≤ k := by
        by_cases hPs : P = start
        · have hd := hInv.hstartrec iP (hPs ▸ SR.hcd)
          rw [hd]
          exact Nat.zero_le k
        · have hfg := hInv.hfg P iP SR.hcd
          have hh := hfg.2 hPs
          rw [hPkeq] at hh
          have hd := hdistm k (Nat.le_of_lt hk2)
          omega
      have hPb : P.1 < grid.length ∧ P.2 < grid.length := by
        rcases hInv.hdom P (by rw [SR.hcd]; simp) with h1 | ⟨h1, h2, _⟩
        · rw [h1]
          exact ⟨hInv.hstart1, hInv.hstart2⟩
        · exact ⟨h1, h2⟩
      have hadjk : orthAdj P (m (k + 1)) := by
        rw [hPkeq]
        exact hadjm k hk2
      have htk := htravm (k + 1) (by omega) (by omega)
      have hmem1 : m (k + 1) ∈ successorsOf P.1 P.2 grid :=
        (mem_successorsOf hPb.2 _).mpr ⟨hadjk, htk.2.1, htk.2.2, htk.1⟩
      rcases Nat.lt_or_ge (k + 1) M with hkM | hkM
      · have hunc : closedAt st.closed (m (k + 1)).1 (m (k + 1)).2 = false :=
          hrange (k + 1) (by omega) hkM
        obtain ⟨_, i2, hcd2, hg2, hop2⟩ := SR.hsucc (m (k + 1)) hmem1 hunc
        refine ⟨k + 1, hkM, hop2, ⟨i2, hcd2, by omega⟩, ?_⟩
        intro k2 hk2a hk2b
        have hold : closedAt st.closed (m k2).1 (m k2).2 = false :=
          hrange k2 (by omega) hk2b
        have hne2 : m k2 ≠ P := by
          rw [hPkeq]
          intro he
          have := monoPath_inj hmp (Nat.le_of_lt hk2b) (Nat.le_of_lt hk2) he
          omega
        cases hc : closedAt st2.closed (m k2).1 (m k2).2 with
        | false => rfl
        | true =>
          rcases (SR.hclosedAt2 (m k2)).mp hc with h1 | h1
          · rw [h1] at hold
            exact Bool.noConfusion hold
          · exact absurd h1 hne2
      · exfalso
        have hkM2 : k + 1 = M := by omega
        have hmemt : food ∈ successorsOf P.1 P.2 grid := by
          rw [← hmM, ← hkM2]
          exact hmem1
        have hcdt : st.cd food = none := by
          rcases hInv.htarget_cd with h | h
          · exact h
          · exact absurd h htne
        have hunct : closedAt st.closed food.1 food.2 = false := by
          cases hc : closedAt st.closed food.1 food.2 with
          | false => rfl
          | true => exact absurd hcdt (hInv.hclosed_cd food hc)
        exact (SR.hsucc food hmemt hunct).1 rfl
    · push_neg at hPk
      have hjne : m j ≠ P := by
        intro he
        exact hPk j (Nat.le_refl j) hjM he.symm
      have hjopen2 : m j ∈ st2.openList := SR.hopen2 (m j) hjopen hjne
      cases hcd2 : st2.cd (m j) with
      | none => exact absurd hcd2 (SR.hinv2.hopen_cd _ hjopen2)
      | some i2 =>
      have hg2 : i2.g ≤ j := by
        have := (SR.hmono (m j) ij i2 hjcd hcd2).2
        omega
      refine ⟨j, hjM, hjopen2, ⟨i2, hcd2, hg2⟩, ?_⟩
      intro k2 hk2a hk2b
      have hold := hrange k2 hk2a hk2b
      have hne2 : m k2 ≠ P := fun he => hPk k2 (by omega) hk2b he.symm
      cases hc : closedAt st2.closed (m k2).1 (m k2).2 with
      | false => rfl
      | true =>
        rcases (SR.hclosedAt2 (m k2)).mp hc with h1 | h1
        · rw [h1] at hold
          exact Bool.noConfusion hold
        · exact absurd h1 hne2

theorem frontier_loop {grid : Grid} {start food : Pt} {M : Nat} {m : Nat → Pt}
    (hmp : MonoPath grid start food M m) (hM : 1 ≤ M)
    (hrows : ∀ row ∈ grid, grid.length ≤ row.length)
    (hMAX : grid.length * grid.length + 2 * grid.length ≤ USIZE_MAX) :
    ∀ (fuel : Nat) (st : SearchState), Inv grid food start st →
      FrontierInv grid M m st →
      grid.length * grid.length + 1 ≤ closedCount st.closed + fuel →
      ∃ dirs, solveLoop grid food fuel st = some (some dirs) ∧ dirs.length = M ∧
        PathTraces grid start dirs.reverse food := by
  intro fuel
  induction fuel with
  | zero =>
    intro st hInv _ hfuel
    exfalso
    have := closedCount_le hInv.hdim1 hInv.hdim2
    omega
  | succ fu ih =>
    intro st hInv hFr hfuel
    cases hop : st.openList with
    | nil =>
      exfalso
      obtain ⟨j, _, hjopen, _, _⟩ := hFr
      rw [hop] at hjopen
      exact List.not_mem_nil _ hjopen
    | cons a rest =>
      rcases frontier_step hmp hM hrows hMAX hInv hFr with
        ⟨dirs, heq, hlen, htr⟩ | ⟨st2, heq, hInv2, hFr2, hcount⟩
      · refine ⟨dirs, ?_, hlen, htr⟩
        simp [solveLoop, hop, heq]
      · obtain ⟨dirs, hd, hlen, htr⟩ := ih st2 hInv2 hFr2 (by omega)
        refine ⟨dirs, ?_, hlen, htr⟩
        simp [solveLoop, hop, heq, hd]

end Snake

namespace Snake

/-- Claim C2 (amended): for a grid with food, rows long enough for the
successor filter to stay in range, and an in-bounds start, the length of
a non-fallback answer of `solve` is at least the Manhattan distance from
the start to the food; and when a detour-free (monotone) traversable path
to the food exists and arithmetic stays below `usize::MAX`, the loop does
return a path whose length equals the Manhattan distance.  (The
unconditional claim fails: when the food is unreachable the fallback
returns at most one move, see the counterexample.) -/
theorem claim_C2_amended (grid : Grid) (start food : Pt) (rand : Nat)
    (hfood : find_target grid = some food)
    (hrows : ∀ row ∈ grid, grid.length ≤ row.length)
    (hs1 : start.1 < grid.length) (hs2 : start.2 < grid.length) :
    (∀ dirs, solveLoop grid food (grid.length * grid.length + 1) (initState start grid) =
        some (some dirs) →
      solve grid start rand = some dirs ∧
        manhatten_distance start.1 start.2 food.1 food.2 ≤ dirs.length) ∧
    (∀ (M : Nat) (m : Nat → Pt), 1 ≤ M → MonoPath grid start food M m →
      grid.length * grid.length + 2 * grid.length ≤ USIZE_MAX →
      ∃ dirs, solve grid start rand = some dirs ∧
        dirs.length = manhatten_distance start.1 start.2 food.1 food.2) := by
  have hInv := initState_inv grid food start hs1 hs2
  constructor
  · intro dirs hloop
    obtain ⟨r, hr, hprop⟩ := solveLoop_spec hrows (grid.length * grid.length + 1)
      (initState start grid) hInv (by
        rw [show (initState start grid).closed =
          List.replicate grid.length (List.replicate grid.length false) from rfl,
          closedCount_replicate]
        omega)
    rw [hloop] at hr
    injection hr with hr
    subst hr
    have htr := (hprop dirs rfl).1
    have hman := htr.manhatten_le
    rw [List.length_reverse] at hman
    exact ⟨by simp [solve, hfood, hloop], hman⟩
  · intro M m hM hmp hMAX
    have hmp2 := hmp
    obtain ⟨hm0, hmM, hadjm, hdistm, htravm⟩ := hmp2
    have hFr : FrontierInv grid M m (initState start grid) := by
      refine ⟨0, hM, ?_, ⟨CellInfo.dflt, ?_, Nat.le_refl 0⟩, ?_⟩
      · rw [hm0]
        exact List.mem_singleton_self start
      · rw [hm0]
        simp [initState]
      · intro k _ _
        exact closedAt_replicate grid.length (m k).1 (m k).2
    obtain ⟨dirs, hd, hlen, _⟩ := frontier_loop hmp hM hrows hMAX
      (grid.length * grid.length + 1) (initState start grid) hInv hFr (by
        rw [show (initState start grid).closed =
          List.replicate grid.length (List.replicate grid.length false) from rfl,
          closedCount_replicate]
        omega)
    have hman : manhatten_distance start.1 start.2 food.1 food.2 = M := by
      have h0 := hdistm 0 (Nat.zero_le M)
      rw [hm0] at h0
      omega
    exact ⟨dirs, by simp [solve, hfood, hd], by rw [hlen, hman]⟩

theorem claim_C2_amended_witness :
    ((solve [[Cell.Free, Cell.Free, Cell.Free], [Cell.Free, Cell.Free, Cell.Free],
        [Cell.Free, Cell.Free, Cell.Food]] (0, 0) 0 =
      some [Direction.East, Direction.East, Direction.South, Direction.South]) ∧
      manhatten_distance 0 0 2 2 ≤ 4) ∧
    (solve [[Cell.Free, Cell.Free, Cell.Free], [Cell.Free, Cell.Free, Cell.Free],
        [Cell.Free, Cell.Free, Cell.Food]] (0, 0) 0).isSome = true := by
  have h := claim_C2_amended [[Cell.Free, Cell.Free, Cell.Free],
    [Cell.Free, Cell.Free, Cell.Free], [Cell.Free, Cell.Free, Cell.Food]]
    (0, 0) (2, 2) 0 (by decide) (by decide) (by decide) (by decide)
  have h1 := h.1 [Direction.East, Direction.East, Direction.South, Direction.South]
    (by decide)
  refine ⟨⟨h1.1, h1.2⟩, ?_⟩
  obtain ⟨dirs, hd, _⟩ := h.2 4
    (fun i => [((0 : Nat), (0 : Nat)), (0, 1), (0, 2), (1, 2), (2, 2)].getD i (2, 2))
    (by omega)
    (by
      refine ⟨by decide, by decide, by decide, by decide, ?_⟩
      intro i h1 h2
      interval_cases i <;> exact ⟨by decide, by decide⟩)
    (by decide)
  rw [hd]
  rfl

end Snake

namespace Snake

/-- Move from `a` one unit per step towards `b`, stopping at `b`. -/
def toward (a b i : Nat) : Nat :=
  if a ≤ b then min (a + i) b else a - min i (a - b)

theorem toward_zero (a b : Nat) : toward a b 0 = a := by
  unfold toward; split <;> omega

theorem toward_self (a i : Nat) : toward a a i = a := by
  unfold toward; split <;> omega

theorem toward_last (a b : Nat) : toward a b (max a b - min a b) = b := by
  unfold toward; split <;> omega

theorem toward_past (a b i : Nat) (h : max a b - min a b ≤ i) : toward a b i = b := by
  unfold toward; split <;> omega

theorem toward_step (a b i : Nat) (h : i < max a b - min a b) :
    toward a b (i + 1) = toward a b i + 1 ∨ toward a b i = toward a b (i + 1) + 1 := by
  unfold toward; split <;> omega

theorem toward_between (a b i : Nat) (h1 : 1 ≤ i) (h2 : i < max a b - min a b) :
    min a b < toward a b i ∧ toward a b i < max a b := by
  unfold toward; split <;> omega

theorem toward_le (a b i : Nat) : min a b ≤ toward a b i ∧ toward a b i ≤ max a b := by
  unfold toward; split <;> omega

theorem toward_dist (a b i : Nat) :
    max (toward a b i) b - min (toward a b i) b = (max a b - min a b) - i := by
  unfold toward; split <;> omega

/-- A straight vertical segment (constant first coordinate) whose
interior is traversable is a monotone path. -/
theorem monoPath_vertical {grid : Grid} {s1 s2 f2 : Nat}
    (hs1 : s1 < grid.length) (hs2 : s2 < grid.length) (hf2 : f2 < grid.length)
    (htravfood : isTraversable grid s1 f2 = true)
    (hline : ∀ k, min s2 f2 < k → k < max s2 f2 → isTraversable grid s1 k = true) :
    MonoPath grid (s1, s2) (s1, f2) (max s2 f2 - min s2 f2)
      (fun i => (s1, toward s2 f2 i)) := by
  refine ⟨?_, ?_, ?_, ?_, ?_⟩
  · simp [toward_zero]
  · simp [toward_last]
  · intro i hi
    refine Or.inl ⟨rfl, ?_⟩
    rcases toward_step s2 f2 i hi with h | h
    · exact Or.inl h.symm
    · exact Or.inr h.symm
  · intro i _
    show manhatten_distance s1 (toward s2 f2 i) s1 f2 = _
    rw [manhatten_eq]
    have := toward_dist s2 f2 i
    omega
  · intro i h1 h2
    refine ⟨?_, hs1, ?_⟩
    · show isTraversable grid s1 (toward s2 f2 i) = true
      rcases Nat.lt_or_ge i (max s2 f2 - min s2 f2) with h | h
      · have hb := toward_between s2 f2 i h1 h
        exact hline _ hb.1 hb.2
      · rw [toward_past s2 f2 i h]
        exact htravfood
    · show toward s2 f2 i < grid.length
      have := toward_le s2 f2 i
      omega

/-- A straight horizontal segment (constant second coordinate) whose
interior is traversable is a monotone path. -/
theorem monoPath_horizontal {grid : Grid} {s1 s2 f1 : Nat}
    (hs1 : s1 < grid.length) (hs2 : s2 < grid.length) (hf1 : f1 < grid.length)
    (htravfood : isTraversable grid f1 s2 = true)
    (hline : ∀ k, min s1 f1 < k → k < max s1 f1 → isTraversable grid k s2 = true) :
    MonoPath grid (s1, s2) (f1, s2) (max s1 f1 - min s1 f1)
      (fun i => (toward s1 f1 i, s2)) := by
  refine ⟨?_, ?_, ?_, ?_, ?_⟩
  · simp [toward_zero]
  · simp [toward_last]
  · intro i hi
    refine Or.inr ⟨rfl, ?_⟩
    rcases toward_step s1 f1 i hi with h | h
    · exact Or.inl h.symm
    · exact Or.inr h.symm
  · intro i _
    show manhatten_distance (toward s1 f1 i) s2 f1 s2 = _
    rw [manhatten_eq]
    have := toward_dist s1 f1 i
    omega
  · intro i h1 h2
    refine ⟨?_, ?_, hs2⟩
    · show isTraversable grid (toward s1 f1 i) s2 = true
      rcases Nat.lt_or_ge i (max s1 f1 - min s1 f1) with h | h
      · have hb := toward_between s1 f1 i h1 h
        exact hline _ hb.1 hb.2
      · rw [toward_past s1 f1 i h]
        exact htravfood
    · show toward s1 f1 i < grid.length
      have := toward_le s1 f1 i
      omega

theorem get_direction_east {fx fy tx ty : Nat} (h : fx < tx) :
    get_direction fx fy tx ty = Direction.East := by
  unfold get_direction
  split_ifs <;> first | rfl | omega

theorem get_direction_west {fx fy tx ty : Nat} (h : tx < fx) :
    get_direction fx fy tx ty = Direction.West := by
  unfold get_direction
  split_ifs <;> first | rfl | omega

theorem get_direction_south {fx fy tx ty : Nat} (h1 : fx = tx) (h2 : fy < ty) :
    get_direction fx fy tx ty = Direction.South := by
  unfold get_direction
  split_ifs <;> first | rfl | omega

theorem get_direction_north {fx fy tx ty : Nat} (h1 : fx = tx) (h2 : ty ≤ fy) :
    get_direction fx fy tx ty = Direction.North := by
  unfold get_direction
  split_ifs <;> first | rfl | omega

end Snake

namespace Snake

/-- On a path whose length equals the Manhattan distance and whose start
shares an axis with the target, every step uses the direction that
`get_direction` derives from start to target. -/
theorem exact_path_dirs {grid : Grid} {food : Pt} :
    ∀ (ds : List Direction) (p : Pt), PathTraces grid p ds food →
      ds.length = manhatten_distance p.1 p.2 food.1 food.2 →
      (p.1 = food.1 ∨ p.2 = food.2) →
      ∀ d ∈ ds, d = get_direction p.1 p.2 food.1 food.2 := by
  intro ds
  induction ds with
  | nil =>
    intro p _ _ _ d hd
    exact absurd hd (List.not_mem_nil d)
  | cons e es ih =>
    intro p htr hlen hax d hd
    cases htr with
    | cons _ q _ _ _ hadj hdir htrav hin hrest =>
    have h1 := hrest.manhatten_le
    have h2 := orthAdj_manhatten_le (t := food) hadj
    simp only [List.length_cons] at hlen
    simp only [orthAdj] at hadj
    simp only [manhatten_eq] at h1 h2 hlen
    have hq : (q.1 = p.1 ∧ food.1 = p.1 ∧
        ((p.2 < food.2 ∧ q.2 = p.2 + 1) ∨ (food.2 < p.2 ∧ q.2 + 1 = p.2))) ∨
        (q.2 = p.2 ∧ food.2 = p.2 ∧
        ((p.1 < food.1 ∧ q.1 = p.1 + 1) ∨ (food.1 < p.1 ∧ q.1 + 1 = p.1))) := by
      rcases hax with h | h <;> omega
    rcases List.mem_cons.mp hd with rfl | hd2
    · rw [hdir]
      rcases hq with ⟨ha, hb, hc | hc⟩ | ⟨ha, hb, hc | hc⟩
      · rw [get_direction_south (by omega) (by omega),
          get_direction_south (by omega) (by omega)]
      · rw [get_direction_north (by omega) (by omega),
          get_direction_north (by omega) (by omega)]
      · rw [get_direction_east (by omega), get_direction_east (by omega)]
      · rw [get_direction_west (by omega), get_direction_west (by omega)]
    · cases es with
      | nil => exact absurd hd2 (List.not_mem_nil d)
      | cons e2 es2 =>
        simp only [List.length_cons] at h1 hlen
        have hlen2 : (e2 :: es2).length =
            manhatten_distance q.1 q.2 food.1 food.2 := by
          simp only [List.length_cons, manhatten_eq]
          omega
        have hax2 : q.1 = food.1 ∨ q.2 = food.2 := by
          rcases hq with ⟨ha, hb, _⟩ | ⟨ha, hb, _⟩
          · exact Or.inl (by omega)
          · exact Or.inr (by omega)
        have hd3 := ih q hrest hlen2 hax2 d hd2
        rw [hd3]
        have hq1 : 1 ≤ manhatten_distance q.1 q.2 food.1 food.2 := by
          rw [← hlen2]
          simp
        simp only [manhatten_eq] at hq1
        rcases hq with ⟨ha, hb, hc | hc⟩ | ⟨ha, hb, hc | hc⟩
        · rw [get_direction_south (by omega) (by omega),
            get_direction_south (by omega) (by omega)]
        · rw [get_direction_north (by omega) (by omega),
            get_direction_north (by omega) (by omega)]
        · rw [get_direction_east (by omega), get_direction_east (by omega)]
        · rw [get_direction_west (by omega), get_direction_west (by omega)]

end Snake

namespace Snake

/-- Claim C4 (amended): on a grid whose rows are long enough (so the
successor filter cannot index out of range, see the counterexample), when
start and food differ on exactly one axis and every cell strictly between
them on that axis is traversable (an unobstructed straight line), `solve`
returns a sequence whose length is the axis gap (the Manhattan distance)
and whose elements are all the single direction from start towards the
food.  The bound on `USIZE_MAX` keeps every stored f-score finite. -/
theorem claim_C4_amended (grid : Grid) (start food : Pt) (rand : Nat)
    (hfood : find_target grid = some food)
    (hrows : ∀ row ∈ grid, grid.length ≤ row.length)
    (hs1 : start.1 < grid.length) (hs2 : start.2 < grid.length)
    (hf2 : food.2 < grid.length)
    (haxis : (start.1 = food.1 ∧ start.2 ≠ food.2) ∨
      (start.2 = food.2 ∧ start.1 ≠ food.1))
    (hline1 : ∀ k, min start.1 food.1 < k → k < max start.1 food.1 →
      isTraversable grid k start.2 = true)
    (hline2 : ∀ k, min start.2 food.2 < k → k < max start.2 food.2 →
      isTraversable grid start.1 k = true)
    (hMAX : grid.length * grid.length + 2 * grid.length ≤ USIZE_MAX) :
    ∃ dirs, solve grid start rand = some dirs ∧
      dirs.length = manhatten_distance start.1 start.2 food.1 food.2 ∧
      ∀ d ∈ dirs, d = get_direction start.1 start.2 food.1 food.2 := by
  have hft := find_target_spec hfood
  have hf1 : food.1 < grid.length := tileAt_lt hft.1
  have htravfood : isTraversable grid food.1 food.2 = true :=
    isTraversable_iff.mpr (Or.inr hft.1)
  have hInv := initState_inv grid food start hs1 hs2
  rcases haxis with ⟨hax, hne⟩ | ⟨hax, hne⟩
  · have hmp := monoPath_vertical hs1 hs2 hf2
      (show isTraversable grid start.1 food.2 = true by rw [hax]; exact htravfood)
      hline2
    have he1 : ((start.1 : Nat), start.2) = start := rfl
    have he2 : ((start.1 : Nat), food.2) = food := by rw [hax]
    rw [he1, he2] at hmp
    have hM : 1 ≤ max start.2 food.2 - min start.2 food.2 := by omega
    have hFr : FrontierInv grid (max start.2 food.2 - min start.2 food.2)
        (fun i => (start.1, toward start.2 food.2 i)) (initState start grid) := by
      refine ⟨0, hM, ?_, ⟨CellInfo.dflt, ?_, Nat.le_refl 0⟩, ?_⟩
      · show ((start.1 : Nat), toward start.2 food.2 0) ∈ [start]
        rw [toward_zero]
        exact List.mem_singleton_self start
      · show (initState start grid).cd (start.1, toward start.2 food.2 0) = _
        rw [toward_zero]
        simp [initState]
      · intro k _ _
        exact closedAt_replicate grid.length _ _
    obtain ⟨dirs, hd, hlen, htr⟩ := frontier_loop hmp hM hrows hMAX
      (grid.length * grid.length + 1) (initState start grid) hInv hFr (by
        rw [show (initState start grid).closed =
          List.replicate grid.length (List.replicate grid.length false) from rfl,
          closedCount_replicate]
        omega)
    have hman : manhatten_distance start.1 start.2 food.1 food.2 =
        max start.2 food.2 - min start.2 food.2 := by
      rw [manhatten_eq]
      omega
    refine ⟨dirs, by simp [solve, hfood, hd], by rw [hlen]; omega, ?_⟩
    intro d hd2
    have hall := exact_path_dirs dirs.reverse start htr
      (by rw [List.length_reverse, hlen]; omega) (Or.inl hax)
    exact hall d (List.mem_reverse.mpr hd2)
  · have hmp := monoPath_horizontal hs1 hs2 hf1
      (show isTraversable grid food.1 start.2 = true by rw [hax]; exact htravfood)
      hline1
    have he1 : ((start.1 : Nat), start.2) = start := rfl
    have he2 : ((food.1 : Nat), start.2) = food := by rw [hax]
    rw [he1, he2] at hmp
    have hM : 1 ≤ max start.1 food.1 - min start.1 food.1 := by omega
    have hFr : FrontierInv grid (max start.1 food.1 - min start.1 food.1)
        (fun i => (toward start.1 food.1 i, start.2)) (initState start grid) := by
      refine ⟨0, hM, ?_, ⟨CellInfo.dflt, ?_, Nat.le_refl 0⟩, ?_⟩
      · show (toward start.1 food.1 0, (start.2 : Nat)) ∈ [start]
        rw [toward_zero]
        exact List.mem_singleton_self start
      · show (initState start grid).cd (toward start.1 food.1 0, start.2) = _
        rw [toward_zero]
        simp [initState]
      · intro k _ _
        exact closedAt_replicate grid.length _ _
    obtain ⟨dirs, hd, hlen, htr⟩ := frontier_loop hmp hM hrows hMAX
      (grid.length * grid.length + 1) (initState start grid) hInv hFr (by
        rw [show (initState start grid).closed =
          List.replicate grid.length (List.replicate grid.length false) from rfl,
          closedCount_replicate]
        omega)
    have hman : manhatten_distance start.1 start.2 food.1 food.2 =
        max start.1 food.1 - min start.1 food.1 := by
      rw [manhatten_eq]
      omega
    refine ⟨dirs, by simp [solve, hfood, hd], by rw [hlen]; omega, ?_⟩
    intro d hd2
    have hall := exact_path_dirs dirs.reverse start htr
      (by rw [List.length_reverse, hlen]; omega) (Or.inr hax)
    exact hall d (List.mem_reverse.mpr hd2)

/-- Claim C4 counterexample: start `(0,0)` and food `(1,0)` differ on
exactly one axis with nothing strictly between them (an unobstructed
straight line), yet `solve` returns no sequence at all: the successor
filter looks up `grid[0][1]`, which is out of range of the 1-element
first row, and panics before the target successor is processed. -/
theorem claim_C4_counterexample :
    solve [[Cell.Free], [Cell.Food]] (0, 0) 0 = none ∧
    find_target [[Cell.Free], [Cell.Food]] = some (1, 0) ∧
    (((0 : Nat), (0 : Nat)).2 = ((1 : Nat), (0 : Nat)).2 ∧
      ((0 : Nat), (0 : Nat)).1 ≠ ((1 : Nat), (0 : Nat)).1) ∧
    (∀ k, min 0 1 < k → k < max 0 1 →
      isTraversable [[Cell.Free], [Cell.Food]] k 0 = true) ∧
    manhatten_distance 0 0 1 0 = 1 := by
  refine ⟨by decide, by decide, ⟨by decide, by decide⟩, ?_, by decide⟩
  intro k h1 h2
  omega

theorem claim_C4_amended_witness :
    (solve [[Cell.Free, Cell.Free, Cell.Free], [Cell.Free, Cell.Free, Cell.Free],
      [Cell.Food, Cell.Free, Cell.Free]] (0, 0) 5).isSome = true := by
  obtain ⟨dirs, hd, _, _⟩ := claim_C4_amended [[Cell.Free, Cell.Free, Cell.Free],
    [Cell.Free, Cell.Free, Cell.Free], [Cell.Food, Cell.Free, Cell.Free]]
    (0, 0) (2, 0) 5 (by decide) (by decide) (by decide) (by decide) (by decide)
    (Or.inr ⟨rfl, by decide⟩)
    (by
      intro k h1 h2
      have hk : k = 1 := by omega
      subst hk
      decide)
    (by
      intro k h1 h2
      omega)
    (by decide)
  rw [hd]
  rfl

end Snake
